import Mathlib

/-!
Verification development for the recursive tree-query compiler of
django-tree-queries (src/tree_queries/compiler.py, query.py).

The relational core is shallowly embedded:

* a base-table row (identifier, nullable parent reference, sibling-order
  column value) is `Row`;
* the recursive CTE `__tree` of `TreeCompiler.CTE_*` is `cteLevels` /
  `cteRows`: level 0 holds the rows with a null parent reference, level
  n+1 joins the source relation against level n on `parent = tree_pk`,
  accumulating `tree_depth`, `tree_path`, `tree_ordering` and `tree_pk`
  exactly as the SQL templates do;
* the rank table of `TreeCompiler.get_rank_table` (a `ROW_NUMBER()`
  window over the sibling ordering) is `rankTableOf`; `ROW_NUMBER` ties
  are unspecified by SQL, the embedding determinizes them by identifier;
* the string encodings of `tree_path` / `tree_ordering` used by the
  sqlite and mysql templates, and the `converter` post-processing
  function, work on `List Char`.
-/

/-- One row of the base relation: primary key, nullable parent reference
(the `parent_id` column) and the value of the sibling-order column. -/
structure Row where
  pk : Nat
  parent : Option Nat
  ord : Int
deriving DecidableEq

/-- One row of the recursive CTE `__tree`: `tree_depth`, `tree_path`,
`tree_ordering`, `tree_pk`. -/
structure CTERow where
  depth : Nat
  path : List Nat
  ordering : List Int
  tpk : Nat
deriving DecidableEq

/-- Base case of the recursive CTE: depth 0, path and ordering seeded with
the row's own identifier and rank/order value. -/
def seedRow (r : Row) : CTERow :=
  ⟨0, [r.pk], [r.ord], r.pk⟩

/-- Recursive case of the CTE: depth is the parent's plus one, path and
ordering are the parent's with this row's own values appended. -/
def stepRow (p : CTERow) (r : Row) : CTERow :=
  ⟨p.depth + 1, p.path ++ [r.pk], p.ordering ++ [r.ord], r.pk⟩

/-- `SELECT ... FROM __rank_table T WHERE T."parent" IS NULL`. -/
def cteBase (t : List Row) : List CTERow :=
  (t.filter fun r => r.parent == none).map seedRow

/-- `SELECT ... FROM __rank_table T JOIN __tree ON T."parent" = __tree.tree_pk`,
applied to the previous generation of `__tree` rows. -/
def cteNext (t : List Row) (gen : List CTERow) : List CTERow :=
  gen.flatMap fun p => ((t.filter fun r => r.parent == some p.tpk).map (stepRow p))

/-- Generation `n` of the recursive CTE evaluation. -/
def cteLevels (t : List Row) : Nat → List CTERow
  | 0 => cteBase t
  | n + 1 => cteNext t (cteLevels t n)

/-- All rows produced by the recursive CTE.  On an acyclic forest the
recursion is exhausted after at most `t.length` generations. -/
def cteRows (t : List Row) : List CTERow :=
  (List.range (t.length + 1)).flatMap (cteLevels t)

theorem mem_cteBase {t : List Row} {c : CTERow} :
    c ∈ cteBase t ↔ ∃ r ∈ t, r.parent = none ∧ c = seedRow r := by
  simp only [cteBase, List.mem_map, List.mem_filter, beq_iff_eq]
  constructor
  · rintro ⟨r, ⟨hr, hp⟩, rfl⟩; exact ⟨r, hr, hp, rfl⟩
  · rintro ⟨r, hr, hp, rfl⟩; exact ⟨r, ⟨hr, hp⟩, rfl⟩

theorem mem_cteNext {t : List Row} {gen : List CTERow} {c : CTERow} :
    c ∈ cteNext t gen ↔ ∃ p ∈ gen, ∃ r ∈ t, r.parent = some p.tpk ∧ c = stepRow p r := by
  simp only [cteNext, List.mem_flatMap, List.mem_map, List.mem_filter, beq_iff_eq]
  constructor
  · rintro ⟨p, hp, r, ⟨hr, hpar⟩, rfl⟩; exact ⟨p, hp, r, hr, hpar, rfl⟩
  · rintro ⟨p, hp, r, hr, hpar, rfl⟩; exact ⟨p, hp, r, ⟨hr, hpar⟩, rfl⟩

/-- Structural invariant of every CTE generation: path length is depth
plus one, the path ends in `tree_pk`, the ordering has the same length
as the path, and the generation index is the depth. -/
theorem cteLevels_invariant (t : List Row) :
    ∀ n, ∀ c ∈ cteLevels t n,
      c.path.length = c.depth + 1 ∧ c.path.getLast? = some c.tpk ∧
        c.ordering.length = c.depth + 1 ∧ c.depth = n := by
  intro n
  induction n with
  | zero =>
    intro c hc
    rcases mem_cteBase.mp hc with ⟨r, -, -, rfl⟩
    simp [seedRow]
  | succ n ih =>
    intro c hc
    rcases mem_cteNext.mp hc with ⟨p, hp, r, -, -, rfl⟩
    obtain ⟨h1, h2, h3, h4⟩ := ih p hp
    refine ⟨?_, ?_, ?_, ?_⟩
    · simp [stepRow, h1]
    · simp [stepRow]
    · simp [stepRow, h3]
    · simp [stepRow, h4]

theorem mem_cteRows {t : List Row} {c : CTERow} :
    c ∈ cteRows t ↔ ∃ n, n < t.length + 1 ∧ c ∈ cteLevels t n := by
  simp only [cteRows, List.mem_flatMap, List.mem_range]

/-- Lexicographic strict comparison of `tree_ordering` values, matching
both the PostgreSQL array comparison and the byte-wise comparison of the
zero-padded separator-terminated string encodings. -/
def lexLt : List Int → List Int → Bool
  | _, [] => false
  | [], _ :: _ => true
  | a :: as, b :: bs => decide (a < b) || (a == b && lexLt as bs)

/-- Stable insertion used to realize `ORDER BY`: a new element is placed
before the first existing element that is not strictly smaller. -/
def insertOrd (lt : α → α → Bool) (a : α) : List α → List α
  | [] => [a]
  | b :: l => if lt b a then b :: insertOrd lt a l else a :: b :: l

/-- Stable sort realizing `ORDER BY` for the embedding. -/
def sortOrd (lt : α → α → Bool) : List α → List α
  | [] => []
  | a :: l => insertOrd lt a (sortOrd lt l)

/-- Comparison of CTE rows by `tree_ordering`. -/
def ordLt (c d : CTERow) : Bool := lexLt c.ordering d.ordering

/-- The default result order added by the query rewriter:
`ORDER BY __tree.tree_ordering`. -/
def sortByTreeOrdering (l : List CTERow) : List CTERow := sortOrd ordLt l

theorem mem_insertOrd {lt : α → α → Bool} {a x : α} :
    ∀ {l : List α}, x ∈ insertOrd lt a l ↔ x = a ∨ x ∈ l := by
  intro l
  induction l with
  | nil => simp [insertOrd]
  | cons b l ih =>
    by_cases h : lt b a = true
    · simp only [insertOrd, if_pos h, List.mem_cons, ih]
      tauto
    · simp only [insertOrd, if_neg h, List.mem_cons]

theorem mem_sortOrd {lt : α → α → Bool} {x : α} :
    ∀ {l : List α}, x ∈ sortOrd lt l ↔ x ∈ l := by
  intro l
  induction l with
  | nil => simp [sortOrd]
  | cons a l ih => simp [sortOrd, mem_insertOrd, ih]

/-- C1: every row of an augmented result satisfies
`len(tree_path) = tree_depth + 1` and `tree_path[-1] = tree_pk`: roots are
seeded at depth 0 with a singleton path holding their own identifier and
every recursive step appends the child's identifier to the parent's path
while incrementing the depth by one. -/
theorem c1_tree_path_depth_invariant (t : List Row) (c : CTERow)
    (hc : c ∈ sortByTreeOrdering (cteRows t)) :
    c.path.length = c.depth + 1 ∧ c.path.getLast? = some c.tpk := by
  have hmem : c ∈ cteRows t := mem_sortOrd.mp hc
  rcases mem_cteRows.mp hmem with ⟨n, -, hn⟩
  obtain ⟨h1, h2, -, -⟩ := cteLevels_invariant t n c hn
  exact ⟨h1, h2⟩

/-- Witness for C1 on the example forest of the specification:
root 1 with children 2 and 3, node 2 having child 4. -/
theorem c1_tree_path_depth_invariant_witness :
    (⟨2, [1, 2, 4], [0, 0, 0], 4⟩ : CTERow) ∈
        sortByTreeOrdering (cteRows
          [⟨1, none, 0⟩, ⟨2, some 1, 0⟩, ⟨3, some 1, 1⟩, ⟨4, some 2, 0⟩]) ∧
      ([1, 2, 4].length = 2 + 1 ∧ [1, 2, 4].getLast? = some 4) := by
  refine ⟨by decide, ?_⟩
  exact c1_tree_path_depth_invariant
    [⟨1, none, 0⟩, ⟨2, some 1, 0⟩, ⟨3, some 1, 1⟩, ⟨4, some 2, 0⟩]
    ⟨2, [1, 2, 4], [0, 0, 0], 4⟩ (by decide)

/-- Rank value assigned by
`Window(expression=RowNumber(), order_by=order_fields)` in
`TreeCompiler.get_rank_table`: one plus the number of rows strictly
before this one in the sibling ordering.  `ROW_NUMBER` leaves the order
of ties unspecified; the embedding determinizes ties by identifier. -/
def rankVal (t : List Row) (r : Row) : Int :=
  1 + ((t.filter fun s => decide (s.ord < r.ord) || (s.ord == r.ord && decide (s.pk < r.pk))).length : Int)

/-- The rank table produced by `TreeCompiler.get_rank_table`: the
(filtered) base relation with columns `pk`, `parent`, `rank_order`. -/
def rankTableOf (t : List Row) : List Row :=
  t.map fun r => ⟨r.pk, r.parent, rankVal t r⟩

/-- Value of the sibling-order column of the row with identifier `p`
(zero when no such row exists). -/
def ordOf (t : List Row) (p : Nat) : Int :=
  match t.find? fun r => r.pk == p with
  | some r => r.ord
  | none => 0

theorem find?_eq_of_mem_of_nodup {t : List Row} {r : Row}
    (hpk : (t.map Row.pk).Nodup) (hr : r ∈ t) :
    (t.find? fun s => s.pk == r.pk) = some r := by
  induction t with
  | nil => cases hr
  | cons a t ih =>
    rcases List.mem_cons.mp hr with rfl | hr'
    · simp [List.find?]
    · have hne : a.pk ≠ r.pk := by
        intro h
        have : r.pk ∈ t.map Row.pk := List.mem_map_of_mem Row.pk hr'
        rw [← h] at this
        exact (List.nodup_cons.mp hpk).1 this
      rw [List.find?_cons_of_neg _ (by simpa using hne)]
      exact ih (List.nodup_cons.mp hpk).2 hr'

theorem ordOf_eq_of_mem {t : List Row} {r : Row}
    (hpk : (t.map Row.pk).Nodup) (hr : r ∈ t) : ordOf t r.pk = r.ord := by
  simp [ordOf, find?_eq_of_mem_of_nodup hpk hr]

theorem eq_of_mem_of_pk_eq {t : List Row} {r s : Row}
    (hpk : (t.map Row.pk).Nodup) (hr : r ∈ t) (hs : s ∈ t) (h : r.pk = s.pk) :
    r = s := by
  have h1 := find?_eq_of_mem_of_nodup hpk hr
  have h2 := find?_eq_of_mem_of_nodup hpk hs
  rw [h] at h1
  rw [h1] at h2
  exact Option.some_injective _ h2

theorem eq_of_mem_of_ord_eq {t : List Row} {r s : Row}
    (hord : (t.map Row.ord).Nodup) (hr : r ∈ t) (hs : s ∈ t) (h : r.ord = s.ord) :
    r = s := by
  induction t with
  | nil => cases hr
  | cons a t ih =>
    have hna : a.ord ∉ t.map Row.ord := (List.nodup_cons.mp hord).1
    rcases List.mem_cons.mp hr with rfl | hr' <;> rcases List.mem_cons.mp hs with rfl | hs'
    · rfl
    · exact absurd (h ▸ List.mem_map_of_mem Row.ord hs') hna
    · exact absurd (h ▸ List.mem_map_of_mem Row.ord hr') (by simpa [← h] using hna)
    · exact ih (List.nodup_cons.mp hord).2 hr' hs'

theorem length_filter_le_of_imp (l : List α) (p q : α → Bool)
    (h : ∀ x ∈ l, p x = true → q x = true) :
    (l.filter p).length ≤ (l.filter q).length := by
  induction l with
  | nil => simp
  | cons a l ih =>
    have ih' := ih fun x hx => h x (List.mem_cons_of_mem a hx)
    by_cases hp : p a = true
    · rw [List.filter_cons_of_pos hp, List.filter_cons_of_pos (h a (List.mem_cons_self a l) hp)]
      simpa using ih'
    · rw [List.filter_cons_of_neg (by simpa using hp)]
      by_cases hq : q a = true
      · rw [List.filter_cons_of_pos hq]
        exact le_trans ih' (by simp)
      · rw [List.filter_cons_of_neg (by simpa using hq)]
        exact ih'

theorem length_filter_lt_of_mem {l : List α} {x : α} (p q : α → Bool)
    (hx : x ∈ l) (hpx : p x = false) (hqx : q x = true)
    (h : ∀ y ∈ l, p y = true → q y = true) :
    (l.filter p).length < (l.filter q).length := by
  induction l with
  | nil => cases hx
  | cons a l ih =>
    have hsub : ∀ y ∈ l, p y = true → q y = true :=
      fun y hy => h y (List.mem_cons_of_mem a hy)
    rcases List.mem_cons.mp hx with rfl | hx'
    · rw [List.filter_cons_of_neg (by simpa using hpx), List.filter_cons_of_pos hqx]
      exact Nat.lt_succ_of_le (length_filter_le_of_imp l p q hsub)
    · by_cases hp : p a = true
      · rw [List.filter_cons_of_pos hp, List.filter_cons_of_pos (h a (List.mem_cons_self a l) hp)]
        simpa using ih hx' hsub
      · rw [List.filter_cons_of_neg (by simpa using hp)]
        by_cases hq : q a = true
        · rw [List.filter_cons_of_pos hq]
          exact Nat.lt_succ_of_lt (ih hx' hsub)
        · rw [List.filter_cons_of_neg (by simpa using hq)]
          exact ih hx' hsub

/-- `ROW_NUMBER` ranks are strictly monotone in the sibling-order value. -/
theorem rankVal_lt_of_ord_lt {t : List Row} {r s : Row}
    (hr : r ∈ t) (h : r.ord < s.ord) : rankVal t r < rankVal t s := by
  unfold rankVal
  have := length_filter_lt_of_mem
    (fun q : Row => decide (q.ord < r.ord) || (q.ord == r.ord && decide (q.pk < r.pk)))
    (fun q : Row => decide (q.ord < s.ord) || (q.ord == s.ord && decide (q.pk < s.pk)))
    hr (by simp) (by simp [h])
    (by
      intro y _ hy
      simp only [Bool.or_eq_true, decide_eq_true_eq, Bool.and_eq_true, beq_iff_eq] at hy ⊢
      rcases hy with hy | ⟨hy, -⟩
      · exact Or.inl (lt_trans hy h)
      · exact Or.inl (hy ▸ h))
  omega

/-- Projection of a CTE row that forgets the `tree_ordering` values. -/
def stripOrd (c : CTERow) : Nat × List Nat × Nat :=
  (c.depth, c.path, c.tpk)

/-- Two source relations with identical identifier/parent columns. -/
def sameSkeleton (t t' : List Row) : Prop :=
  t.map (fun r => (r.pk, r.parent)) = t'.map (fun r => (r.pk, r.parent))

theorem sameSkeleton_rankTableOf (t : List Row) : sameSkeleton t (rankTableOf t) := by
  simp [sameSkeleton, rankTableOf]

theorem rankTableOf_map_pk (t : List Row) :
    (rankTableOf t).map Row.pk = t.map Row.pk := by
  simp [rankTableOf]

theorem rankTableOf_length (t : List Row) : (rankTableOf t).length = t.length := by
  simp [rankTableOf]

theorem sameSkeleton_filter_map (t : List Row) (o : Option Nat) (f : Nat → α) :
    ∀ t' : List Row, sameSkeleton t t' →
      ((t.filter fun r => r.parent == o).map fun r => f r.pk) =
        ((t'.filter fun r => r.parent == o).map fun r => f r.pk) := by
  induction t with
  | nil =>
    intro t' h
    cases t' with
    | nil => rfl
    | cons b t' => exact absurd h (by simp [sameSkeleton])
  | cons a t ih =>
    intro t' h
    cases t' with
    | nil => exact absurd h (by simp [sameSkeleton])
    | cons b t' =>
      simp only [sameSkeleton, List.map_cons, List.cons.injEq, Prod.mk.injEq] at h
      obtain ⟨⟨hpk, hpar⟩, hrest⟩ := h
      have hb : (b.parent == o) = (a.parent == o) := by rw [hpar]
      by_cases hp : (a.parent == o) = true
      · simp only [List.filter_cons, hp, hb, if_true, List.map_cons, hpk]
        exact congrArg _ (ih t' hrest)
      · simp only [List.filter_cons, Bool.eq_false_iff.mpr hp, hb,
          Bool.false_eq_true, if_false]
        exact ih t' hrest

theorem stripOrd_cteLevels_of_sameSkeleton {t t' : List Row} (h : sameSkeleton t t') :
    ∀ n, (cteLevels t n).map stripOrd = (cteLevels t' n).map stripOrd := by
  intro n
  induction n with
  | zero =>
    have := sameSkeleton_filter_map t none (fun p => ((0 : Nat), [p], p)) t' h
    simpa [cteLevels, cteBase, List.map_map, Function.comp_def, stripOrd, seedRow] using this
  | succ n ih =>
    show (cteNext t (cteLevels t n)).map stripOrd = (cteNext t' (cteLevels t' n)).map stripOrd
    generalize hg : cteLevels t n = gen at ih
    generalize hg' : cteLevels t' n = gen' at ih
    clear hg hg'
    induction gen generalizing gen' with
    | nil =>
      cases gen' with
      | nil => rfl
      | cons q gen' => exact absurd ih (by simp)
    | cons p gen ihg =>
      cases gen' with
      | nil => exact absurd ih (by simp)
      | cons q gen' =>
        simp only [List.map_cons, List.cons.injEq] at ih
        obtain ⟨hpq, hrest⟩ := ih
        have hd : p.depth = q.depth := congrArg Prod.fst hpq
        have hpath : p.path = q.path := congrArg (Prod.fst ∘ Prod.snd) hpq
        have htpk : p.tpk = q.tpk := congrArg (Prod.snd ∘ Prod.snd) hpq
        have htail := ihg gen' hrest
        simp only [cteNext, List.flatMap_cons, List.map_append] at htail ⊢
        rw [htail]
        congr 1
        have := sameSkeleton_filter_map t (some p.tpk)
          (fun pk0 => (p.depth + 1, p.path ++ [pk0], pk0)) t' h
        simp only [List.map_map] at this ⊢
        rw [show (some p.tpk) = (some q.tpk) by rw [htpk]] at this
        simpa [Function.comp_def, stripOrd, stepRow, hd, hpath, htpk] using this

theorem stripOrd_cteRows_of_sameSkeleton {t t' : List Row}
    (h : sameSkeleton t t') (hlen : t.length = t'.length) :
    (cteRows t).map stripOrd = (cteRows t').map stripOrd := by
  simp only [cteRows, List.map_flatMap, hlen]
  exact List.flatMap_congr fun n _ => stripOrd_cteLevels_of_sameSkeleton h n

/-- In every CTE row the accumulated `tree_ordering` holds exactly the
order-column values of the identifiers along `tree_path`. -/
theorem cteLevels_ordering_eq (t : List Row) (hpk : (t.map Row.pk).Nodup) :
    ∀ n, ∀ c ∈ cteLevels t n, c.ordering = c.path.map (ordOf t) := by
  intro n
  induction n with
  | zero =>
    intro c hc
    rcases mem_cteBase.mp hc with ⟨r, hr, -, rfl⟩
    simp [seedRow, ordOf_eq_of_mem hpk hr]
  | succ n ih =>
    intro c hc
    rcases mem_cteNext.mp hc with ⟨p, hp, r, hr, -, rfl⟩
    simp [stepRow, ih p hp, ordOf_eq_of_mem hpk hr]

/-- Every identifier on a CTE row's path is the identifier of a source row. -/
theorem cteLevels_path_pks (t : List Row) :
    ∀ n, ∀ c ∈ cteLevels t n, ∀ p ∈ c.path, p ∈ t.map Row.pk := by
  intro n
  induction n with
  | zero =>
    intro c hc p hp
    rcases mem_cteBase.mp hc with ⟨r, hr, -, rfl⟩
    simp only [seedRow, List.mem_singleton] at hp
    exact hp ▸ List.mem_map_of_mem Row.pk hr
  | succ n ih =>
    intro c hc p hp
    rcases mem_cteNext.mp hc with ⟨q, hq, r, hr, -, rfl⟩
    simp only [stepRow, List.mem_append, List.mem_singleton] at hp
    rcases hp with hp | rfl
    · exact ih q hq p hp
    · exact List.mem_map_of_mem Row.pk hr

theorem ordOf_map_column (g : Row → Int) (t : List Row) (p : Nat) :
    ordOf (t.map fun r => ⟨r.pk, r.parent, g r⟩) p =
      match t.find? fun r => r.pk == p with
      | some r => g r
      | none => 0 := by
  unfold ordOf
  induction t with
  | nil => rfl
  | cons a t ih =>
    by_cases h : (a.pk == p) = true
    · simp [List.find?_cons, h]
    · simp only [List.map_cons, List.find?_cons, h]
      simpa using ih

theorem ordOf_rankTableOf (t : List Row) (p : Nat) :
    ordOf (rankTableOf t) p =
      match t.find? fun r => r.pk == p with
      | some r => rankVal t r
      | none => 0 :=
  ordOf_map_column (rankVal t) t p

theorem cteRows_ordering_eq {t : List Row} (hpk : (t.map Row.pk).Nodup)
    {c : CTERow} (hc : c ∈ cteRows t) : c.ordering = c.path.map (ordOf t) := by
  rcases mem_cteRows.mp hc with ⟨n, -, hn⟩
  exact cteLevels_ordering_eq t hpk n c hn

theorem cteRows_path_pks {t : List Row} {c : CTERow} (hc : c ∈ cteRows t) :
    ∀ p ∈ c.path, p ∈ t.map Row.pk := by
  rcases mem_cteRows.mp hc with ⟨n, -, hn⟩
  exact cteLevels_path_pks t n c hn

theorem ordOf_rankTableOf_eq_rankVal {t : List Row} {r : Row}
    (hpk : (t.map Row.pk).Nodup) (hr : r ∈ t) :
    ordOf (rankTableOf t) r.pk = rankVal t r := by
  rw [ordOf_rankTableOf, find?_eq_of_mem_of_nodup hpk hr]

/-- Replacing sibling-order values by their `ROW_NUMBER` ranks preserves
strict comparisons between rows, when order values are pairwise distinct. -/
theorem ordOf_rank_lt_iff {t : List Row} (hpk : (t.map Row.pk).Nodup)
    (hord : (t.map Row.ord).Nodup) {p q : Nat}
    (hp : p ∈ t.map Row.pk) (hq : q ∈ t.map Row.pk) :
    (ordOf t p < ordOf t q ↔ ordOf (rankTableOf t) p < ordOf (rankTableOf t) q) := by
  rcases List.mem_map.mp hp with ⟨r, hr, rfl⟩
  rcases List.mem_map.mp hq with ⟨s, hs, rfl⟩
  rw [ordOf_eq_of_mem hpk hr, ordOf_eq_of_mem hpk hs,
    ordOf_rankTableOf_eq_rankVal hpk hr, ordOf_rankTableOf_eq_rankVal hpk hs]
  constructor
  · exact fun h => rankVal_lt_of_ord_lt hr h
  · intro h
    rcases lt_trichotomy r.ord s.ord with h' | h' | h'
    · exact h'
    · exact absurd (eq_of_mem_of_ord_eq hord hr hs h' ▸ h) (lt_irrefl _)
    · exact absurd (lt_trans h (rankVal_lt_of_ord_lt hs h')) (lt_irrefl _)

theorem ordOf_rank_eq_iff {t : List Row} (hpk : (t.map Row.pk).Nodup)
    (hord : (t.map Row.ord).Nodup) {p q : Nat}
    (hp : p ∈ t.map Row.pk) (hq : q ∈ t.map Row.pk) :
    (ordOf t p = ordOf t q ↔ ordOf (rankTableOf t) p = ordOf (rankTableOf t) q) := by
  rcases List.mem_map.mp hp with ⟨r, hr, rfl⟩
  rcases List.mem_map.mp hq with ⟨s, hs, rfl⟩
  rw [ordOf_eq_of_mem hpk hr, ordOf_eq_of_mem hpk hs,
    ordOf_rankTableOf_eq_rankVal hpk hr, ordOf_rankTableOf_eq_rankVal hpk hs]
  constructor
  · intro h
    rw [eq_of_mem_of_ord_eq hord hr hs h]
  · intro h
    rcases lt_trichotomy r.ord s.ord with h' | h' | h'
    · exact absurd (h ▸ rankVal_lt_of_ord_lt hr h') (lt_irrefl _)
    · exact h'
    · exact absurd (h ▸ rankVal_lt_of_ord_lt hs h') (lt_irrefl _)

theorem lexLt_map_congr (f g : Nat → Int) (P : Nat → Prop)
    (hlt : ∀ a b, P a → P b → (f a < f b ↔ g a < g b))
    (heq : ∀ a b, P a → P b → (f a = f b ↔ g a = g b)) :
    ∀ l1 l2 : List Nat, (∀ a ∈ l1, P a) → (∀ a ∈ l2, P a) →
      lexLt (l1.map f) (l2.map f) = lexLt (l1.map g) (l2.map g) := by
  intro l1
  induction l1 with
  | nil =>
    intro l2 _ _
    cases l2 <;> rfl
  | cons a as ih =>
    intro l2 h1 h2
    cases l2 with
    | nil => rfl
    | cons b bs =>
      have Pa : P a := h1 a (List.mem_cons_self a as)
      have Pb : P b := h2 b (List.mem_cons_self b bs)
      have e1 : decide (f a < f b) = decide (g a < g b) :=
        decide_eq_decide.mpr (hlt a b Pa Pb)
      have e2 : (f a == f b) = (g a == g b) := by
        by_cases h : f a = f b
        · simp [h, (heq a b Pa Pb).mp h]
        · have h' : ¬ g a = g b := fun hg => h ((heq a b Pa Pb).mpr hg)
          simp [h, h']
      have e3 := ih bs (fun x hx => h1 x (List.mem_cons_of_mem a hx))
        (fun x hx => h2 x (List.mem_cons_of_mem b hx))
      simp only [List.map_cons, lexLt, e1, e2, e3]

theorem map_insertOrd (f : α → β) (lt1 : α → α → Bool) (lt2 : β → β → Bool) (a : α) :
    ∀ l : List α, (∀ y ∈ l, lt1 y a = lt2 (f y) (f a)) →
      (insertOrd lt1 a l).map f = insertOrd lt2 (f a) (l.map f) := by
  intro l
  induction l with
  | nil => intro _; rfl
  | cons b l ih =>
    intro h
    have hb := h b (List.mem_cons_self b l)
    by_cases hc : lt1 b a = true
    · simp only [insertOrd, if_pos hc, List.map_cons, if_pos (hb ▸ hc)]
      rw [ih fun y hy => h y (List.mem_cons_of_mem b hy)]
    · simp only [insertOrd, if_neg hc, List.map_cons, if_neg (hb ▸ hc)]

theorem map_sortOrd (f : α → β) (lt1 : α → α → Bool) (lt2 : β → β → Bool) :
    ∀ l : List α, (∀ x ∈ l, ∀ y ∈ l, lt1 x y = lt2 (f x) (f y)) →
      (sortOrd lt1 l).map f = sortOrd lt2 (l.map f) := by
  intro l
  induction l with
  | nil => intro _; rfl
  | cons a l ih =>
    intro h
    show (insertOrd lt1 a (sortOrd lt1 l)).map f = insertOrd lt2 (f a) (sortOrd lt2 (l.map f))
    rw [map_insertOrd f lt1 lt2 a (sortOrd lt1 l)
      (fun y hy => h y (List.mem_cons_of_mem a (mem_sortOrd.mp hy)) a (List.mem_cons_self a l))]
    rw [ih fun x hx y hy => h x (List.mem_cons_of_mem a hx) y (List.mem_cons_of_mem a hy)]

theorem insertOrd_congr (lt1 lt2 : α → α → Bool) (a : α) :
    ∀ l : List α, (∀ y ∈ l, lt1 y a = lt2 y a) →
      insertOrd lt1 a l = insertOrd lt2 a l := by
  intro l
  induction l with
  | nil => intro _; rfl
  | cons b l ih =>
    intro h
    have hb := h b (List.mem_cons_self b l)
    by_cases hc : lt1 b a = true
    · simp only [insertOrd, if_pos hc, if_pos (hb ▸ hc)]
      rw [ih fun y hy => h y (List.mem_cons_of_mem b hy)]
    · simp only [insertOrd, if_neg hc, if_neg (hb ▸ hc)]

theorem sortOrd_congr (lt1 lt2 : α → α → Bool) :
    ∀ l : List α, (∀ x ∈ l, ∀ y ∈ l, lt1 x y = lt2 x y) →
      sortOrd lt1 l = sortOrd lt2 l := by
  intro l
  induction l with
  | nil => intro _; rfl
  | cons a l ih =>
    intro h
    show insertOrd lt1 a (sortOrd lt1 l) = insertOrd lt2 a (sortOrd lt2 l)
    rw [ih fun x hx y hy => h x (List.mem_cons_of_mem a hx) y (List.mem_cons_of_mem a hy)]
    exact insertOrd_congr lt1 lt2 a (sortOrd lt2 l)
      (fun y hy => h y (List.mem_cons_of_mem a (mem_sortOrd.mp hy)) a (List.mem_cons_self a l))

/-- Result rows of the general path: the recursive CTE reads the rank
table (`CTE_POSTGRESQL` etc. over `get_rank_table`), and the rewriter
orders by `__tree.tree_ordering`. -/
def generalPathRows (t : List Row) : List CTERow :=
  sortByTreeOrdering (cteRows (rankTableOf t))

/-- Result rows of the fast path: the recursive CTE reads the base
relation directly (`CTE_POSTGRESQL_SIMPLE` etc.), accumulating the raw
order-column value, and the rewriter orders by `__tree.tree_ordering`. -/
def fastPathRows (t : List Row) : List CTERow :=
  sortByTreeOrdering (cteRows t)

/-- C2, counterexample: the fast and the general path do not return the
same `tree_ordering` values (the general path accumulates `ROW_NUMBER`
ranks, the fast path raw order-column values): a single root with order
value 5 yields `tree_ordering` `[5]` on the fast path and `[1]` on the
general path.  Moreover, when two siblings share the same order value
(root 1; children 2 and 3 both with order value 5; 4 a child of 2 with
value 9; 5 a child of 3 with value 1), even the row order differs. -/
theorem c2_fast_path_counterexample :
    ((fastPathRows [⟨1, none, 5⟩]).map CTERow.ordering ≠
        (generalPathRows [⟨1, none, 5⟩]).map CTERow.ordering) ∧
      ((fastPathRows [⟨1, none, 0⟩, ⟨2, some 1, 5⟩, ⟨3, some 1, 5⟩,
            ⟨4, some 2, 9⟩, ⟨5, some 3, 1⟩]).map CTERow.tpk ≠
        (generalPathRows [⟨1, none, 0⟩, ⟨2, some 1, 5⟩, ⟨3, some 1, 5⟩,
            ⟨4, some 2, 9⟩, ⟨5, some 3, 1⟩]).map CTERow.tpk) := by
  constructor
  · decide
  · decide

/-- C2 (amended): on a forest with pairwise-distinct identifiers and
pairwise-distinct sibling-order values, the fast path and the general
path agree on row membership, `tree_depth`, `tree_path`, `tree_pk` and
on the row order; only the `tree_ordering` values themselves differ
(dense ranks versus raw order-column values), and they induce the same
order. -/
theorem c2_fast_path_equals_general_path (t : List Row)
    (hpk : (t.map Row.pk).Nodup) (hord : (t.map Row.ord).Nodup) :
    (fastPathRows t).map stripOrd = (generalPathRows t).map stripOrd := by
  have hpk' : ((rankTableOf t).map Row.pk).Nodup := by
    rw [rankTableOf_map_pk]; exact hpk
  have hstep1 : (fastPathRows t).map stripOrd =
      sortOrd (fun s s' : Nat × List Nat × Nat =>
        lexLt (s.2.1.map (ordOf t)) (s'.2.1.map (ordOf t)))
        ((cteRows t).map stripOrd) := by
    apply map_sortOrd
    intro x hx y hy
    simp only [ordLt, stripOrd, cteRows_ordering_eq hpk hx, cteRows_ordering_eq hpk hy]
  have hstep2 : (generalPathRows t).map stripOrd =
      sortOrd (fun s s' : Nat × List Nat × Nat =>
        lexLt (s.2.1.map (ordOf (rankTableOf t))) (s'.2.1.map (ordOf (rankTableOf t))))
        ((cteRows (rankTableOf t)).map stripOrd) := by
    apply map_sortOrd
    intro x hx y hy
    simp only [ordLt, stripOrd, cteRows_ordering_eq hpk' hx, cteRows_ordering_eq hpk' hy]
  have hstep3 : (cteRows (rankTableOf t)).map stripOrd = (cteRows t).map stripOrd :=
    (stripOrd_cteRows_of_sameSkeleton (sameSkeleton_rankTableOf t)
      (rankTableOf_length t).symm).symm
  rw [hstep1, hstep2, hstep3]
  apply sortOrd_congr
  intro s hs s' hs'
  rcases List.mem_map.mp hs with ⟨c, hc, rfl⟩
  rcases List.mem_map.mp hs' with ⟨c', hc', rfl⟩
  exact lexLt_map_congr (ordOf t) (ordOf (rankTableOf t)) (fun p => p ∈ t.map Row.pk)
    (fun a b pa pb => ordOf_rank_lt_iff hpk hord pa pb)
    (fun a b pa pb => ordOf_rank_eq_iff hpk hord pa pb)
    c.path c'.path (cteRows_path_pks hc) (cteRows_path_pks hc')

/-- Witness for C2 on the specification's example forest with distinct
order values. -/
theorem c2_fast_path_equals_general_path_witness :
    (([⟨1, none, 0⟩, ⟨2, some 1, 10⟩, ⟨3, some 1, 20⟩, ⟨4, some 2, 30⟩] :
          List Row).map Row.pk).Nodup ∧
      (([⟨1, none, 0⟩, ⟨2, some 1, 10⟩, ⟨3, some 1, 20⟩, ⟨4, some 2, 30⟩] :
          List Row).map Row.ord).Nodup ∧
      (fastPathRows [⟨1, none, 0⟩, ⟨2, some 1, 10⟩, ⟨3, some 1, 20⟩, ⟨4, some 2, 30⟩]).map stripOrd =
        (generalPathRows [⟨1, none, 0⟩, ⟨2, some 1, 10⟩, ⟨3, some 1, 20⟩, ⟨4, some 2, 30⟩]).map stripOrd :=
  ⟨by decide, by decide,
    c2_fast_path_equals_general_path
      [⟨1, none, 0⟩, ⟨2, some 1, 10⟩, ⟨3, some 1, 20⟩, ⟨4, some 2, 30⟩]
      (by decide) (by decide)⟩

/-- One `tree_filter` (inclusive) or `tree_exclude` (exclusive) clause
attached to the rank-table query (`TreeQuerySet.tree_filter` /
`TreeQuerySet.tree_exclude`). -/
structure TreeClause where
  inclusive : Bool
  pred : Row → Bool

/-- `rank_table_query.filter(...)`. -/
def treeFilter (q : List Row) (p : Row → Bool) : List Row := q.filter p

/-- `rank_table_query.exclude(...)`. -/
def treeExclude (q : List Row) (p : Row → Bool) : List Row :=
  q.filter fun r => !(p r)

/-- Sequential application of all the pre-filter clauses to the rank
table's source relation, in the order they were attached. -/
def applyClauses : List TreeClause → List Row → List Row
  | [], q => q
  | c :: cs, q =>
      applyClauses cs (if c.inclusive then treeFilter q c.pred else treeExclude q c.pred)

/-- A row survives the pre-filtering iff it satisfies every inclusive
predicate and no exclusive predicate. -/
def clausesPass (cs : List TreeClause) (r : Row) : Bool :=
  cs.all fun c => if c.inclusive then c.pred r else !(c.pred r)

theorem applyClauses_eq_filter (cs : List TreeClause) :
    ∀ q : List Row, applyClauses cs q = q.filter (clausesPass cs) := by
  induction cs with
  | nil =>
    intro q
    rw [applyClauses]
    symm
    apply List.filter_eq_self.mpr
    intro r _
    rfl
  | cons c cs ih =>
    intro q
    by_cases hc : c.inclusive = true
    · simp only [applyClauses, hc, if_true, treeFilter, ih, List.filter_filter]
      apply List.filter_congr
      intro r _
      simp [clausesPass, hc, Bool.and_comm]
    · simp only [applyClauses, hc, if_false, Bool.false_eq_true, treeExclude, ih,
        List.filter_filter]
      apply List.filter_congr
      intro r _
      simp only [clausesPass, List.all_cons, hc, Bool.false_eq_true, if_false]
      rw [Bool.and_comm]

/-- A root-to-node chain inside the relation `t`: every link is realized
by a row of `t`, starting at a row with a null parent reference. -/
inductive PathChain (t : List Row) : List Nat → Nat → Prop
  | root {r : Row} : r ∈ t → r.parent = none → PathChain t [r.pk] r.pk
  | step {r : Row} {l : List Nat} {p : Nat} :
      PathChain t l p → r ∈ t → r.parent = some p → PathChain t (l ++ [r.pk]) r.pk

theorem pathChain_last_mem {t : List Row} {l : List Nat} {d : Nat}
    (h : PathChain t l d) : d ∈ l := by
  induction h with
  | root _ _ => exact List.mem_singleton_self _
  | step _ _ _ _ => simp

theorem pathChain_length_pos {t : List Row} {l : List Nat} {d : Nat}
    (h : PathChain t l d) : 0 < l.length := by
  cases h with
  | root _ _ => simp
  | step _ _ _ => simp

theorem pathChain_mem_pks {t : List Row} {l : List Nat} {d : Nat}
    (h : PathChain t l d) : ∀ p ∈ l, p ∈ t.map Row.pk := by
  induction h with
  | root hr _ =>
    intro p hp
    rw [List.mem_singleton.mp hp]
    exact List.mem_map_of_mem Row.pk hr
  | step _ hr _ ih =>
    intro p hp
    rcases List.mem_append.mp hp with hp | hp
    · exact ih p hp
    · rw [List.mem_singleton.mp hp]
      exact List.mem_map_of_mem Row.pk hr

/-- Every CTE row's path is a root-to-node chain inside the source relation. -/
theorem cteLevels_pathChain (t : List Row) :
    ∀ n, ∀ c ∈ cteLevels t n, PathChain t c.path c.tpk := by
  intro n
  induction n with
  | zero =>
    intro c hc
    rcases mem_cteBase.mp hc with ⟨r, hr, hp, rfl⟩
    exact PathChain.root hr hp
  | succ n ih =>
    intro c hc
    rcases mem_cteNext.mp hc with ⟨p, hp, r, hr, hpar, rfl⟩
    exact PathChain.step (ih p hp) hr hpar

/-- Every root-to-node chain inside the source relation is realized by a
CTE row of the corresponding generation. -/
theorem pathChain_complete {t : List Row} {l : List Nat} {d : Nat}
    (h : PathChain t l d) :
    ∃ c ∈ cteLevels t (l.length - 1), c.path = l ∧ c.tpk = d := by
  induction h with
  | root hr hp =>
    exact ⟨seedRow _, mem_cteBase.mpr ⟨_, hr, hp, rfl⟩, rfl, rfl⟩
  | step hch hr hpar ih =>
    rcases ih with ⟨c, hc, hcl, hct⟩
    rename_i r l p
    have hlen : (l ++ [r.pk]).length - 1 = (l.length - 1) + 1 := by
      have := pathChain_length_pos hch
      simp only [List.length_append, List.length_singleton]
      omega
    refine ⟨stepRow c r, ?_, ?_, rfl⟩
    · rw [hlen]
      exact mem_cteNext.mpr ⟨c, hc, r, hr, by rw [hct]; exact hpar, rfl⟩
    · simp [stepRow, hcl]

/-- `a` is a strict ancestor of `d` along the parent references of `t`. -/
inductive IsAncestor (t : List Row) (a : Nat) : Nat → Prop
  | base {r : Row} : r ∈ t → r.parent = some a → IsAncestor t a r.pk
  | step {r : Row} {p : Nat} :
      IsAncestor t a p → r ∈ t → r.parent = some p → IsAncestor t a r.pk

theorem pathChain_inversion {f : List Row} {l : List Nat} {d : Nat}
    (h : PathChain f l d) :
    (∃ s ∈ f, s.pk = d ∧ s.parent = none ∧ l = [s.pk]) ∨
      (∃ s ∈ f, ∃ l' p, s.pk = d ∧ s.parent = some p ∧ PathChain f l' p ∧ l = l' ++ [s.pk]) := by
  cases h with
  | root hs hnone => exact Or.inl ⟨_, hs, rfl, hnone, rfl⟩
  | step hch hs hpar => exact Or.inr ⟨_, hs, _, _, rfl, hpar, hch, rfl⟩

/-- In a relation with unique identifiers, every root-to-node chain of a
sub-relation passes through each ancestor of its endpoint. -/
theorem ancestor_mem_pathChain {t f : List Row}
    (hpk : (t.map Row.pk).Nodup) (hsub : ∀ r ∈ f, r ∈ t) {a d : Nat}
    (hanc : IsAncestor t a d) :
    ∀ {l : List Nat}, PathChain f l d → a ∈ l := by
  induction hanc with
  | base hr hpar =>
    rename_i r
    intro l hch
    rcases pathChain_inversion hch with ⟨s, hs, hspk, hnone, rfl⟩ |
        ⟨s, hs, l', p, hspk, hspar, hch', rfl⟩
    · have : s = r := eq_of_mem_of_pk_eq hpk (hsub s hs) hr hspk
      rw [this, hpar] at hnone
      cases hnone
    · have hsr : s = r := eq_of_mem_of_pk_eq hpk (hsub s hs) hr hspk
      rw [hsr, hpar] at hspar
      have hpa : a = p := by injection hspar
      exact List.mem_append.mpr (Or.inl (hpa ▸ pathChain_last_mem hch'))
  | step _ hr hpar ih =>
    rename_i r p hprev
    intro l hch
    rcases pathChain_inversion hch with ⟨s, hs, hspk, hnone, rfl⟩ |
        ⟨s, hs, l', p', hspk, hspar, hch', rfl⟩
    · have : s = r := eq_of_mem_of_pk_eq hpk (hsub s hs) hr hspk
      rw [this, hpar] at hnone
      cases hnone
    · have hsr : s = r := eq_of_mem_of_pk_eq hpk (hsub s hs) hr hspk
      rw [hsr, hpar] at hspar
      have hpp : p = p' := by injection hspar
      exact List.mem_append.mpr (Or.inl (ih (hpp ▸ hch')))

theorem cteRows_pathChain {t : List Row} {c : CTERow} (hc : c ∈ cteRows t) :
    PathChain t c.path c.tpk := by
  rcases mem_cteRows.mp hc with ⟨n, -, hn⟩
  exact cteLevels_pathChain t n c hn

theorem exists_strip_partner_general {f : List Row} {c : CTERow}
    (hc : c ∈ cteRows (rankTableOf f)) :
    ∃ c' ∈ cteRows f, c'.depth = c.depth ∧ c'.path = c.path ∧ c'.tpk = c.tpk := by
  have h := stripOrd_cteRows_of_sameSkeleton (sameSkeleton_rankTableOf f)
    (rankTableOf_length f).symm
  have hm : stripOrd c ∈ (cteRows (rankTableOf f)).map stripOrd :=
    List.mem_map_of_mem stripOrd hc
  rw [← h] at hm
  rcases List.mem_map.mp hm with ⟨c', hc', heq⟩
  simp only [stripOrd, Prod.mk.injEq] at heq
  exact ⟨c', hc', heq.1, heq.2.1, heq.2.2⟩

theorem exists_strip_partner_rank {f : List Row} {c' : CTERow}
    (hc' : c' ∈ cteRows f) :
    ∃ c ∈ cteRows (rankTableOf f), c.depth = c'.depth ∧ c.path = c'.path ∧ c.tpk = c'.tpk := by
  have h := stripOrd_cteRows_of_sameSkeleton (sameSkeleton_rankTableOf f)
    (rankTableOf_length f).symm
  have hm : stripOrd c' ∈ (cteRows f).map stripOrd :=
    List.mem_map_of_mem stripOrd hc'
  rw [h] at hm
  rcases List.mem_map.mp hm with ⟨c, hc, heq⟩
  simp only [stripOrd, Prod.mk.injEq] at heq
  exact ⟨c, hc, heq.1, heq.2.1, heq.2.2⟩

/-- C5: pre-filtering is applied to the rank relation before rank
assignment, so a node `a` failing the composed predicates receives no
rank, disappears from the augmented result together with every one of
its descendants (even those passing the predicates themselves), while
every node whose whole root chain survives the filtering remains. -/
theorem c5_tree_filter_removes_subtree (t : List Row) (cs : List TreeClause) (a : Row)
    (hpk : (t.map Row.pk).Nodup) (ha : a ∈ t) (hfail : clausesPass cs a = false) :
    (∀ rr ∈ rankTableOf (applyClauses cs t), rr.pk ≠ a.pk) ∧
      (∀ c ∈ sortByTreeOrdering (cteRows (rankTableOf (applyClauses cs t))), c.tpk ≠ a.pk) ∧
      (∀ c ∈ sortByTreeOrdering (cteRows (rankTableOf (applyClauses cs t))),
        ¬ IsAncestor t a.pk c.tpk) ∧
      (∀ (l : List Nat) (d : Nat), PathChain (applyClauses cs t) l d → l.Nodup →
        ∃ c ∈ sortByTreeOrdering (cteRows (rankTableOf (applyClauses cs t))), c.tpk = d) := by
  rw [applyClauses_eq_filter]
  set f := t.filter (clausesPass cs) with hf
  have hsub : ∀ r ∈ f, r ∈ t := fun r hr => (List.mem_filter.mp hr).1
  have hnotf : ∀ s ∈ f, s.pk ≠ a.pk := by
    intro s hs hcontra
    have hst : s ∈ t := hsub s hs
    have : s = a := eq_of_mem_of_pk_eq hpk hst ha hcontra
    rw [this] at hs
    rw [(List.mem_filter.mp hs).2] at hfail
    cases hfail
  have hnotpks : a.pk ∉ f.map Row.pk := by
    intro hmem
    rcases List.mem_map.mp hmem with ⟨s, hs, hspk⟩
    exact hnotf s hs hspk
  refine ⟨?_, ?_, ?_, ?_⟩
  · intro rr hrr
    rcases List.mem_map.mp hrr with ⟨s, hs, rfl⟩
    exact hnotf s hs
  · intro c hc
    rcases exists_strip_partner_general (mem_sortOrd.mp hc) with ⟨c', hc', -, -, htpk⟩
    intro hcontra
    apply hnotpks
    rw [← hcontra, ← htpk]
    have hchain : PathChain f c'.path c'.tpk := cteRows_pathChain hc'
    exact pathChain_mem_pks hchain c'.tpk (pathChain_last_mem hchain)
  · intro c hc hanc
    rcases exists_strip_partner_general (mem_sortOrd.mp hc) with ⟨c', hc', -, hpath, htpk⟩
    have hchain : PathChain f c'.path c'.tpk := cteRows_pathChain hc'
    rw [htpk] at hchain
    have hmem : a.pk ∈ c'.path := ancestor_mem_pathChain hpk hsub hanc hchain
    exact hnotpks (pathChain_mem_pks hchain a.pk hmem)
  · intro l d hchain hnodup
    have hsubpks : l ⊆ f.map Row.pk := fun p hp => pathChain_mem_pks hchain p hp
    have hlen : l.length ≤ f.length := by
      have := (hnodup.subperm hsubpks).length_le
      simpa using this
    have hpos := pathChain_length_pos hchain
    rcases pathChain_complete hchain with ⟨c0, hc0, -, hc0t⟩
    have hc0rows : c0 ∈ cteRows f :=
      mem_cteRows.mpr ⟨l.length - 1, by omega, hc0⟩
    rcases exists_strip_partner_rank hc0rows with ⟨c, hcmem, -, -, hct⟩
    exact ⟨c, mem_sortOrd.mpr hcmem, by rw [hct, hc0t]⟩

/-- Witness for C5 on the specification's pre-filter scenario: excluding
node 2 (A) from the forest 1(2(4),3). -/
theorem c5_tree_filter_removes_subtree_witness :
    (([⟨1, none, 0⟩, ⟨2, some 1, 0⟩, ⟨3, some 1, 1⟩, ⟨4, some 2, 0⟩] :
          List Row).map Row.pk).Nodup ∧
      (⟨2, some 1, 0⟩ : Row) ∈
        ([⟨1, none, 0⟩, ⟨2, some 1, 0⟩, ⟨3, some 1, 1⟩, ⟨4, some 2, 0⟩] : List Row) ∧
      clausesPass [⟨false, fun r => r.pk == 2⟩] ⟨2, some 1, 0⟩ = false ∧
      (∀ c ∈ sortByTreeOrdering (cteRows (rankTableOf (applyClauses
          [⟨false, fun r => r.pk == 2⟩]
          [⟨1, none, 0⟩, ⟨2, some 1, 0⟩, ⟨3, some 1, 1⟩, ⟨4, some 2, 0⟩]))),
        c.tpk ≠ (⟨2, some 1, 0⟩ : Row).pk) :=
  ⟨by decide, by decide, by rfl,
    (c5_tree_filter_removes_subtree
      [⟨1, none, 0⟩, ⟨2, some 1, 0⟩, ⟨3, some 1, 1⟩, ⟨4, some 2, 0⟩]
      [⟨false, fun r => r.pk == 2⟩] ⟨2, some 1, 0⟩
      (by decide) (by decide) (by rfl)).2.1⟩

/-- The reserved separator `"\x1f"` (`SEPARATOR` in compiler.py). -/
def sepChar : Char := Char.ofNat 31

/-- The padding character used by `printf("%020s", ...)` and
`LPAD(..., 20, "0")`. -/
def zeroChar : Char := '0'

/-- Decimal rendering of an identifier or rank, as the database engines
render integers inside `CONCAT` / `printf("%s")`. -/
def natChars (n : Nat) : List Char :=
  if n = 0 then [zeroChar]
  else ((Nat.digits 10 n).reverse.map fun d => Char.ofNat (48 + d))

def isDigitChar (c : Char) : Bool := 48 ≤ c.toNat && c.toNat ≤ 57

/-- Accumulating decimal parser, the success path of Python's `int()`. -/
def parseNatAux : Nat → List Char → Option Nat
  | acc, [] => some acc
  | acc, c :: cs =>
      if isDigitChar c then parseNatAux (acc * 10 + (c.toNat - 48)) cs else none

/-- Python `int(v)` on a token: fails (`ValueError`) on an empty token or
any non-digit character. -/
def parseNatChars : List Char → Option Nat
  | [] => none
  | c :: cs => parseNatAux 0 (c :: cs)

/-- `printf("%020s", v)`: left-pad to a minimum width of 20 with zeros
(sqlite's `printf` does not truncate on width). -/
def printfPad20 (s : List Char) : List Char :=
  if s.length < 20 then List.replicate (20 - s.length) zeroChar ++ s else s

/-- MySQL `LPAD(s, 20, "0")`: left-pad to exactly 20 characters, keeping
the leftmost 20 characters when `s` is longer. -/
def lpad20 (s : List Char) : List Char :=
  if s.length ≤ 20 then List.replicate (20 - s.length) zeroChar ++ s else s.take 20

/-- `tree_path` on sqlite, built by the CTE:
`printf("{sep}%s{sep}", pk)` seeded, `prev || printf("%s{sep}", pk)` appended. -/
def sqlitePathEncode (root : Nat) (rest : List Nat) : List Char :=
  rest.foldl (fun prev p => prev ++ natChars p ++ [sepChar])
    (sepChar :: (natChars root ++ [sepChar]))

/-- `tree_ordering` on sqlite:
`printf("{sep}%020s{sep}", v)` seeded, `prev || printf("%020s{sep}", v)` appended. -/
def sqliteOrdEncode (root : Nat) (rest : List Nat) : List Char :=
  rest.foldl (fun prev v => prev ++ printfPad20 (natChars v) ++ [sepChar])
    (sepChar :: (printfPad20 (natChars root) ++ [sepChar]))

/-- The `CAST(... AS char(1000))` in `CTE_MYSQL`'s base case (the
source's `-- Limit to max. 50 levels...` workaround): it fixes the CTE
column type, so the accumulated `tree_path` / `tree_ordering` value
stored at every level is capped at 1000 characters (non-strict MySQL
truncates; strict mode errors — either way nothing beyond the cap is
stored). -/
def mysqlChar1000 (s : List Char) : List Char := s.take 1000

/-- `tree_path` on MySQL:
`CAST(CONCAT("{sep}", pk, "{sep}") AS char(1000))` seeded,
`CONCAT(prev, pk, "{sep}")` appended, every level stored in the
`char(1000)` CTE column. -/
def mysqlPathEncode (root : Nat) (rest : List Nat) : List Char :=
  rest.foldl (fun prev p => mysqlChar1000 (prev ++ natChars p ++ [sepChar]))
    (mysqlChar1000 (sepChar :: (natChars root ++ [sepChar])))

/-- `tree_ordering` on MySQL:
`CAST(CONCAT("{sep}", LPAD(CONCAT(v, "{sep}"), 20, "0")) AS char(1000))`
seeded, `CONCAT(prev, LPAD(CONCAT(v, "{sep}"), 20, "0"))` appended,
every level stored in the `char(1000)` CTE column. -/
def mysqlOrdEncode (root : Nat) (rest : List Nat) : List Char :=
  rest.foldl (fun prev v => mysqlChar1000 (prev ++ lpad20 (natChars v ++ [sepChar])))
    (mysqlChar1000 (sepChar :: lpad20 (natChars root ++ [sepChar])))

/-- A value as returned by the database driver: a typed array on
PostgreSQL, an encoded string on sqlite and MySQL. -/
inductive DbValue
  | arr (l : List Nat)
  | strval (s : List Char)

/-- The `converter` function of compiler.py: strings are split on the
separator and stripped of the empty leading/trailing tokens, then every
element is converted with `int`, falling back to the unconverted
elements when any conversion fails. -/
def converter : DbValue → List Nat ⊕ List (List Char)
  | .arr l => .inl l
  | .strval s =>
      match (((s.splitOn sepChar).drop 1).dropLast).mapM parseNatChars with
      | some ns => .inl ns
      | none => .inr (((s.splitOn sepChar).drop 1).dropLast)

theorem char_ofNat_digit_toNat {d : Nat} (hd : d < 10) :
    (Char.ofNat (48 + d)).toNat = 48 + d := by
  interval_cases d <;> decide

theorem mem_natChars_digit {n : Nat} {c : Char} (hc : c ∈ natChars n) :
    48 ≤ c.toNat ∧ c.toNat ≤ 57 := by
  unfold natChars at hc
  by_cases hn : n = 0
  · rw [if_pos hn] at hc
    rcases List.mem_singleton.mp hc with rfl
    exact ⟨by decide, by decide⟩
  · rw [if_neg hn] at hc
    rcases List.mem_map.mp hc with ⟨d, hd, rfl⟩
    have hd10 : d < 10 :=
      Nat.digits_lt_base (by norm_num) (List.mem_reverse.mp hd)
    rw [char_ofNat_digit_toNat hd10]
    omega

theorem sepChar_not_mem_natChars (n : Nat) : sepChar ∉ natChars n := by
  intro h
  have := mem_natChars_digit h
  have hsep : sepChar.toNat = 31 := by decide
  omega

theorem natChars_ne_nil (n : Nat) : natChars n ≠ [] := by
  unfold natChars
  by_cases hn : n = 0
  · simp [hn]
  · rw [if_neg hn]
    simp [Nat.digits_ne_nil_iff_ne_zero.mpr hn]

theorem parseNatAux_digits (ds : List Nat) :
    ∀ acc, (∀ d ∈ ds, d < 10) →
      parseNatAux acc (ds.map fun d => Char.ofNat (48 + d)) =
        some (ds.foldl (fun a d => a * 10 + d) acc) := by
  induction ds with
  | nil => intro acc _; rfl
  | cons d ds ih =>
    intro acc h
    have hd : d < 10 := h d (List.mem_cons_self d ds)
    have htn := char_ofNat_digit_toNat hd
    have hdig : isDigitChar (Char.ofNat (48 + d)) = true := by
      simp only [isDigitChar, htn, Bool.and_eq_true, decide_eq_true_eq]
      omega
    simp only [List.map_cons, parseNatAux, hdig, if_true, htn, List.foldl_cons]
    rw [show 48 + d - 48 = d by omega]
    exact ih _ fun x hx => h x (List.mem_cons_of_mem d hx)

theorem foldl_digits_eq_ofDigits (l : List Nat) :
    l.reverse.foldl (fun a d => a * 10 + d) 0 = Nat.ofDigits 10 l := by
  rw [List.foldl_reverse]
  induction l with
  | nil => simp [Nat.ofDigits]
  | cons d l ih =>
    simp only [List.foldr_cons, ih, Nat.ofDigits_cons]
    ring

theorem parseNatAux_natChars (n : Nat) : parseNatAux 0 (natChars n) = some n := by
  unfold natChars
  by_cases hn : n = 0
  · rw [if_pos hn, hn]
    rfl
  · rw [if_neg hn]
    rw [parseNatAux_digits (Nat.digits 10 n).reverse 0
      (fun d hd => Nat.digits_lt_base (by norm_num) (List.mem_reverse.mp hd))]
    rw [foldl_digits_eq_ofDigits, Nat.ofDigits_digits]

theorem parseNatAux_zeros (k : Nat) (l : List Char) :
    parseNatAux 0 (List.replicate k zeroChar ++ l) = parseNatAux 0 l := by
  induction k with
  | zero => rfl
  | succ k ih =>
    have hz : isDigitChar zeroChar = true := by decide
    simp only [List.replicate_succ, List.cons_append, parseNatAux, hz, if_true]
    have : zeroChar.toNat - 48 = 0 := by decide
    rw [this]
    exact ih

theorem parseNatChars_eq_aux {l : List Char} (h : l ≠ []) :
    parseNatChars l = parseNatAux 0 l := by
  cases l with
  | nil => exact absurd rfl h
  | cons c cs => rfl

theorem parseNatChars_padded (k : Nat) (n : Nat) :
    parseNatChars (List.replicate k zeroChar ++ natChars n) = some n := by
  have hne : List.replicate k zeroChar ++ natChars n ≠ [] := by
    simp [natChars_ne_nil n]
  rw [parseNatChars_eq_aux hne, parseNatAux_zeros, parseNatAux_natChars]

theorem parseNatChars_natChars (n : Nat) : parseNatChars (natChars n) = some n := by
  simpa using parseNatChars_padded 0 n

/-- Splitting a separator-terminated token stream on the separator
recovers the empty head, the tokens, and the empty tail. -/
theorem splitOn_token_stream (toks : List (List Char))
    (h : ∀ tk ∈ toks, sepChar ∉ tk) :
    (sepChar :: toks.flatMap fun tk => tk ++ [sepChar]).splitOn sepChar =
      [] :: (toks ++ [[]]) := by
  have hsep : (sepChar == sepChar) = true := by simp
  show List.splitOnP (· == sepChar) _ = _
  rw [List.splitOnP_cons]
  rw [if_pos hsep]
  congr 1
  induction toks with
  | nil => simp
  | cons tk toks ih =>
    have htk : ∀ x ∈ tk, ¬((· == sepChar) x = true) := by
      intro x hx hcontra
      exact h tk (List.mem_cons_self tk toks) (beq_iff_eq.mp hcontra ▸ hx)
    simp only [List.flatMap_cons, List.append_assoc, List.singleton_append]
    rw [List.splitOnP_first _ _ htk sepChar (by simp)]
    rw [ih fun t ht => h t (List.mem_cons_of_mem tk ht)]
    rfl

/-- Decoding a separator-terminated token stream yields exactly the tokens. -/
theorem decode_token_stream (toks : List (List Char))
    (h : ∀ tk ∈ toks, sepChar ∉ tk) :
    ((((sepChar :: toks.flatMap fun tk => tk ++ [sepChar]).splitOn
        sepChar).drop 1).dropLast) = toks := by
  rw [splitOn_token_stream toks h]
  simp

theorem mapM_parse_tokens (tok : Nat → List Char) :
    ∀ l : List Nat, (∀ e ∈ l, parseNatChars (tok e) = some e) →
      (l.map tok).mapM parseNatChars = some l := by
  intro l
  induction l with
  | nil => intro _; rfl
  | cons e l ih =>
    intro h
    simp only [List.map_cons, List.mapM_cons, h e (List.mem_cons_self e l),
      ih fun x hx => h x (List.mem_cons_of_mem e hx), Option.pure_def,
      Option.bind_eq_bind, Option.some_bind]

theorem foldl_append_token (tok : Nat → List Char) :
    ∀ (rest : List Nat) (acc : List Char),
      rest.foldl (fun prev p => prev ++ tok p ++ [sepChar]) acc =
        acc ++ rest.flatMap fun p => tok p ++ [sepChar] := by
  intro rest
  induction rest with
  | nil => intro acc; simp
  | cons p rest ih =>
    intro acc
    rw [List.foldl_cons, ih]
    simp [List.append_assoc]

theorem natChars_length_le {e : Nat} (he : e < 10 ^ 18) :
    (natChars e).length ≤ 18 := by
  unfold natChars
  by_cases hn : e = 0
  · simp [hn]
  · rw [if_neg hn]
    simp only [List.length_map, List.length_reverse]
    rw [Nat.digits_len 10 e (by norm_num) hn]
    have := (Nat.lt_pow_iff_log_lt (b := 10) (by norm_num) hn).mp he
    omega

theorem parse_printfPad20 (e : Nat) :
    parseNatChars (printfPad20 (natChars e)) = some e := by
  unfold printfPad20
  by_cases h : (natChars e).length < 20
  · rw [if_pos h]
    exact parseNatChars_padded _ e
  · rw [if_neg h]
    exact parseNatChars_natChars e

theorem sep_not_mem_padded (k : Nat) (e : Nat) :
    sepChar ∉ List.replicate k zeroChar ++ natChars e := by
  intro h
  rcases List.mem_append.mp h with h | h
  · have := List.eq_of_mem_replicate h
    exact absurd this (by decide)
  · exact sepChar_not_mem_natChars e h

theorem sep_not_mem_printfPad20 (e : Nat) :
    sepChar ∉ printfPad20 (natChars e) := by
  unfold printfPad20
  by_cases h : (natChars e).length < 20
  · rw [if_pos h]
    exact sep_not_mem_padded _ e
  · rw [if_neg h]
    exact sepChar_not_mem_natChars e

theorem lpad20_token_eq {e : Nat} (he : (natChars e).length ≤ 19) :
    lpad20 (natChars e ++ [sepChar]) =
      (List.replicate (20 - ((natChars e).length + 1)) zeroChar ++ natChars e) ++ [sepChar] := by
  unfold lpad20
  rw [if_pos (by simp; omega)]
  simp [List.append_assoc]

theorem flatMap_map_token (tok : Nat → List Char) (l : List Nat) :
    ((l.map tok).flatMap fun tk => tk ++ [sepChar]) =
      l.flatMap fun p => tok p ++ [sepChar] := by
  induction l with
  | nil => rfl
  | cons e l ih => simp only [List.map_cons, List.flatMap_cons, ih]

/-- Decoding any separator-terminated stream of parseable tokens yields
the token values. -/
theorem converter_token_stream (tok : Nat → List Char) (l : List Nat)
    (hsep : ∀ e ∈ l, sepChar ∉ tok e)
    (hparse : ∀ e ∈ l, parseNatChars (tok e) = some e) :
    converter (.strval (sepChar :: ((l.map tok).flatMap fun tk => tk ++ [sepChar]))) =
      .inl l := by
  show (match (((_ : List Char).splitOn sepChar).drop 1).dropLast.mapM parseNatChars with
    | some ns => (Sum.inl ns : List Nat ⊕ List (List Char))
    | none => Sum.inr (((_ : List Char).splitOn sepChar).drop 1).dropLast) = Sum.inl l
  rw [decode_token_stream (l.map tok) (by
    intro tk htk
    rcases List.mem_map.mp htk with ⟨e, he, rfl⟩
    exact hsep e he)]
  rw [mapM_parse_tokens tok l hparse]

theorem sqlitePathEncode_eq (root : Nat) (rest : List Nat) :
    sqlitePathEncode root rest =
      sepChar :: (((root :: rest).map natChars).flatMap fun tk => tk ++ [sepChar]) := by
  unfold sqlitePathEncode
  rw [foldl_append_token, flatMap_map_token]
  simp [List.flatMap_cons, List.append_assoc]

theorem sqliteOrdEncode_eq (root : Nat) (rest : List Nat) :
    sqliteOrdEncode root rest =
      sepChar :: (((root :: rest).map fun v => printfPad20 (natChars v)).flatMap
        fun tk => tk ++ [sepChar]) := by
  unfold sqliteOrdEncode
  rw [foldl_append_token (fun v => printfPad20 (natChars v)),
    flatMap_map_token (fun v => printfPad20 (natChars v))]
  simp [List.flatMap_cons, List.append_assoc]

/-- A token of the MySQL `tree_ordering` stream after `LPAD`: the
zero-padding together with the rendered rank, the trailing separator
factored out. -/
def mysqlOrdToken (v : Nat) : List Char :=
  List.replicate (20 - ((natChars v).length + 1)) zeroChar ++ natChars v

theorem mysqlOrdToken_length {v : Nat} (hv : (natChars v).length ≤ 19) :
    (mysqlOrdToken v).length = 19 := by
  unfold mysqlOrdToken
  simp only [List.length_append, List.length_replicate]
  omega

theorem mysqlChar1000_of_le {s : List Char} (h : s.length ≤ 1000) :
    mysqlChar1000 s = s :=
  List.take_of_length_le h

/-- As long as the accumulated value stays within the `char(1000)` cap,
the capped fold agrees with the uncapped fold. -/
theorem foldl_cap_eq (tok : Nat → List Char) :
    ∀ (rest : List Nat) (seed : List Char),
      (seed ++ rest.flatMap fun p => tok p ++ [sepChar]).length ≤ 1000 →
      rest.foldl (fun prev p => mysqlChar1000 (prev ++ tok p ++ [sepChar]))
          (mysqlChar1000 seed) =
        rest.foldl (fun prev p => prev ++ tok p ++ [sepChar]) seed := by
  intro rest
  induction rest with
  | nil =>
    intro seed h
    simp only [List.foldl_nil]
    exact mysqlChar1000_of_le (by simpa using h)
  | cons p rest ih =>
    intro seed h
    have hseed : seed.length ≤ 1000 := by
      simp only [List.length_append] at h
      omega
    have hcond : ((seed ++ tok p ++ [sepChar]) ++
        rest.flatMap fun q => tok q ++ [sepChar]).length ≤ 1000 := by
      simp only [List.length_append, List.flatMap_cons] at h ⊢
      omega
    simp only [List.foldl_cons]
    rw [mysqlChar1000_of_le hseed]
    exact ih (seed ++ tok p ++ [sepChar]) hcond

theorem flatMap_token_length_le (tok : Nat → List Char) (B : Nat) :
    ∀ l : List Nat, (∀ p ∈ l, (tok p).length ≤ B) →
      (l.flatMap fun p => tok p ++ [sepChar]).length ≤ l.length * (B + 1) := by
  intro l
  induction l with
  | nil => intro _; simp
  | cons p l ih =>
    intro h
    have hp := h p (List.mem_cons_self p l)
    have ih' := ih fun q hq => h q (List.mem_cons_of_mem p hq)
    simp only [List.flatMap_cons, List.length_append, List.length_cons,
      List.length_singleton, List.length_nil]
    have : (l.length + 1) * (B + 1) = l.length * (B + 1) + (B + 1) := by ring
    omega

/-- Within the cap (at most 50 elements below `10 ^ 18`, hence at most
`1 + 50 * 19 = 951` characters), the MySQL path encoding is the plain
separator-terminated token stream. -/
theorem mysqlPathEncode_eq (root : Nat) (rest : List Nat)
    (hsmall : ∀ e ∈ root :: rest, e < 10 ^ 18)
    (hlen : (root :: rest).length ≤ 50) :
    mysqlPathEncode root rest =
      sepChar :: (((root :: rest).map natChars).flatMap fun tk => tk ++ [sepChar]) := by
  unfold mysqlPathEncode
  rw [foldl_cap_eq natChars rest (sepChar :: (natChars root ++ [sepChar])) (by
    have hroot : (natChars root).length ≤ 18 :=
      natChars_length_le (hsmall root (List.mem_cons_self root rest))
    have hrest := flatMap_token_length_le natChars 18 rest
      (fun q hq => natChars_length_le (hsmall q (List.mem_cons_of_mem root hq)))
    have hrl : rest.length ≤ 49 := by
      simpa using hlen
    have : rest.length * 19 ≤ 49 * 19 := Nat.mul_le_mul_right 19 hrl
    simp only [List.length_cons, List.length_append, List.length_singleton,
      List.length_nil]
    omega)]
  rw [foldl_append_token, flatMap_map_token]
  simp [List.flatMap_cons, List.append_assoc]

theorem lpad20_token_eq' {e : Nat} (he : (natChars e).length ≤ 19) :
    lpad20 (natChars e ++ [sepChar]) = mysqlOrdToken e ++ [sepChar] := by
  unfold mysqlOrdToken
  exact lpad20_token_eq he

/-- Within the cap (at most 49 elements: 49 fixed 20-character blocks
after the leading separator are `981 ≤ 1000` characters), the MySQL
ordering encoding is the plain separator-terminated token stream. -/
theorem mysqlOrdEncode_eq (root : Nat) (rest : List Nat)
    (hsmall : ∀ e ∈ root :: rest, e < 10 ^ 18)
    (hk : (root :: rest).length ≤ 49) :
    mysqlOrdEncode root rest =
      sepChar :: (((root :: rest).map mysqlOrdToken).flatMap fun tk => tk ++ [sepChar]) := by
  have hlen19 : ∀ e ∈ root :: rest, (natChars e).length ≤ 19 :=
    fun e he => le_trans (natChars_length_le (hsmall e he)) (by omega)
  unfold mysqlOrdEncode
  rw [lpad20_token_eq' (hlen19 root (List.mem_cons_self root rest))]
  rw [List.foldl_ext
    (fun prev v => mysqlChar1000 (prev ++ lpad20 (natChars v ++ [sepChar])))
    (fun prev v => mysqlChar1000 (prev ++ mysqlOrdToken v ++ [sepChar]))
    (mysqlChar1000 (sepChar :: (mysqlOrdToken root ++ [sepChar])))
    (by
      intro a v hv
      show mysqlChar1000 (a ++ lpad20 (natChars v ++ [sepChar])) = _
      rw [lpad20_token_eq' (hlen19 v (List.mem_cons_of_mem root hv))]
      simp [List.append_assoc])]
  rw [foldl_cap_eq mysqlOrdToken rest (sepChar :: (mysqlOrdToken root ++ [sepChar])) (by
    have hroot : (mysqlOrdToken root).length = 19 :=
      mysqlOrdToken_length (hlen19 root (List.mem_cons_self root rest))
    have hrest := flatMap_token_length_le mysqlOrdToken 19 rest
      (fun q hq => le_of_eq (mysqlOrdToken_length (hlen19 q (List.mem_cons_of_mem root hq))))
    have hrl : rest.length ≤ 48 := by simpa using hk
    have hmul : rest.length * 20 ≤ 48 * 20 := Nat.mul_le_mul_right 20 hrl
    simp only [List.length_cons, List.length_append, List.length_singleton,
      List.length_nil]
    omega)]
  rw [foldl_append_token mysqlOrdToken, flatMap_map_token mysqlOrdToken]
  simp [List.flatMap_cons, List.append_assoc]

/-- C4, counterexample: at the claimed bound of 50 elements the MySQL
`tree_ordering` round trip fails.  Each `LPAD` block is a fixed 20
characters, so 50 elements encode to `1 + 20 * 50 = 1001` characters;
the `CAST(... AS char(1000))` column cap drops the final separator and
decoding returns only the first 49 values. -/
theorem c4_mysql_cap_counterexample :
    (0 :: List.replicate 49 (0 : Nat)).length ≤ 50 ∧
      (∀ e ∈ (0 :: List.replicate 49 (0 : Nat)), e < 10 ^ 18) ∧
      converter (.strval (mysqlOrdEncode 0 (List.replicate 49 0))) ≠
        .inl (0 :: List.replicate 49 (0 : Nat)) ∧
      converter (.strval (mysqlOrdEncode 0 (List.replicate 49 0))) =
        .inl (List.replicate 49 (0 : Nat)) := by
  refine ⟨by decide, by decide, by decide, by decide⟩

/-- C4 (amended): for every dialect's encode/decode pair, decoding the
encoded column value of a sequence of small non-negative integers
(identity on the PostgreSQL array dialect; separator splitting, empty
leading/trailing token removal and integer conversion on the sqlite and
MySQL string dialects, for both the plain and the zero-padded
encodings) returns exactly the original sequence — for up to 50
elements on every encoding except the MySQL `tree_ordering` one, whose
fixed 20-character blocks meet the `char(1000)` column cap beyond 49
elements. -/
theorem c4_converter_roundtrip (root : Nat) (rest : List Nat)
    (hlen : (root :: rest).length ≤ 50)
    (hsmall : ∀ e ∈ root :: rest, e < 10 ^ 18) :
    converter (.arr (root :: rest)) = .inl (root :: rest) ∧
      converter (.strval (sqlitePathEncode root rest)) = .inl (root :: rest) ∧
      converter (.strval (sqliteOrdEncode root rest)) = .inl (root :: rest) ∧
      converter (.strval (mysqlPathEncode root rest)) = .inl (root :: rest) ∧
      ((root :: rest).length ≤ 49 →
        converter (.strval (mysqlOrdEncode root rest)) = .inl (root :: rest)) := by
  refine ⟨rfl, ?_, ?_, ?_, ?_⟩
  · rw [sqlitePathEncode_eq]
    exact converter_token_stream natChars (root :: rest)
      (fun e _ => sepChar_not_mem_natChars e) (fun e _ => parseNatChars_natChars e)
  · rw [sqliteOrdEncode_eq]
    exact converter_token_stream (fun v => printfPad20 (natChars v)) (root :: rest)
      (fun e _ => sep_not_mem_printfPad20 e) (fun e _ => parse_printfPad20 e)
  · rw [mysqlPathEncode_eq root rest hsmall hlen]
    exact converter_token_stream natChars (root :: rest)
      (fun e _ => sepChar_not_mem_natChars e) (fun e _ => parseNatChars_natChars e)
  · intro hk
    rw [mysqlOrdEncode_eq root rest hsmall hk]
    exact converter_token_stream mysqlOrdToken (root :: rest)
      (fun e _ => sep_not_mem_padded _ e) (fun e _ => parseNatChars_padded _ e)

/-- Witness for C4 on the sequence `[1, 2, 4]`. -/
theorem c4_converter_roundtrip_witness :
    ([1, 2, 4] : List Nat).length ≤ 50 ∧
      (∀ e ∈ ([1, 2, 4] : List Nat), e < 10 ^ 18) ∧
      converter (.strval (sqlitePathEncode 1 [2, 4])) = .inl [1, 2, 4] ∧
      converter (.strval (mysqlOrdEncode 1 [2, 4])) = .inl [1, 2, 4] :=
  ⟨by decide, by decide,
    (c4_converter_roundtrip 1 [2, 4] (by decide) (by decide)).2.1,
    (c4_converter_roundtrip 1 [2, 4] (by decide) (by decide)).2.2.2.2 (by decide)⟩

theorem lexLt_asymm : ∀ x y : List Int, lexLt x y = true → lexLt y x = false := by
  intro x
  induction x with
  | nil =>
    intro y h
    cases y with
    | nil => cases h
    | cons b bs => rfl
  | cons a as ih =>
    intro y h
    cases y with
    | nil => cases h
    | cons b bs =>
      simp only [lexLt, Bool.or_eq_true, decide_eq_true_eq, Bool.and_eq_true,
        beq_iff_eq] at h
      simp only [lexLt, Bool.or_eq_false_iff, Bool.and_eq_false_iff,
        decide_eq_false_iff_not, beq_eq_false_iff_ne, ne_eq]
      rcases h with h | ⟨rfl, h2⟩
      · exact ⟨by omega, Or.inl (by omega)⟩
      · exact ⟨by omega, Or.inr (ih bs h2)⟩

theorem lexLt_neg_trans :
    ∀ x y z : List Int, lexLt y x = false → lexLt z y = false → lexLt z x = false := by
  intro x
  induction x with
  | nil =>
    intro y z _ _
    cases z with
    | nil => rfl
    | cons c cs => rfl
  | cons a as ih =>
    intro y z h1 h2
    cases y with
    | nil => cases h1
    | cons b bs =>
      cases z with
      | nil => cases h2
      | cons c cs =>
        simp only [lexLt, Bool.or_eq_false_iff, Bool.and_eq_false_iff,
          decide_eq_false_iff_not, beq_eq_false_iff_ne, ne_eq] at h1 h2 ⊢
        obtain ⟨hba, h1r⟩ := h1
        obtain ⟨hcb, h2r⟩ := h2
        refine ⟨by omega, ?_⟩
        by_cases hca : c = a
        · rcases h1r with hba' | h1r
          · exact absurd (by omega : b = a) hba'
          · rcases h2r with hcb' | h2r
            · exact absurd (by omega : c = b) hcb'
            · exact Or.inr (ih bs cs h1r h2r)
        · exact Or.inl hca

theorem pairwise_insertOrd (lt : α → α → Bool)
    (hasym : ∀ x y, lt x y = true → lt y x = false)
    (htrans : ∀ x y z, lt y x = false → lt z y = false → lt z x = false)
    (a : α) :
    ∀ l : List α, l.Pairwise (fun u v => lt v u = false) →
      (insertOrd lt a l).Pairwise (fun u v => lt v u = false) := by
  intro l
  induction l with
  | nil =>
    intro _
    simp [insertOrd]
  | cons b l ih =>
    intro hp
    rcases List.pairwise_cons.mp hp with ⟨hb, hl⟩
    by_cases hc : lt b a = true
    · rw [insertOrd, if_pos hc]
      refine List.pairwise_cons.mpr ⟨?_, ih hl⟩
      intro v hv
      rcases mem_insertOrd.mp hv with rfl | hv
      · exact hasym b v hc
      · exact hb v hv
    · rw [insertOrd, if_neg hc]
      refine List.pairwise_cons.mpr ⟨?_, hp⟩
      intro v hv
      rcases List.mem_cons.mp hv with rfl | hv
      · simpa using hc
      · exact htrans a b v (by simpa using hc) (hb v hv)

theorem pairwise_sortOrd (lt : α → α → Bool)
    (hasym : ∀ x y, lt x y = true → lt y x = false)
    (htrans : ∀ x y z, lt y x = false → lt z y = false → lt z x = false) :
    ∀ l : List α, (sortOrd lt l).Pairwise (fun u v => lt v u = false) := by
  intro l
  induction l with
  | nil => simp [sortOrd]
  | cons a l ih => exact pairwise_insertOrd lt hasym htrans a (sortOrd lt l) ih

/-- The stored string form of a `tree_path` on the string-encoding
dialects (the sqlite template; MySQL produces the same shape). -/
def pathStringOf : List Nat → List Char
  | [] => [sepChar]
  | r :: rest => sqlitePathEncode r rest

/-- The separator-wrapped needle
`f"{SEPARATOR}{pk}{SEPARATOR}"` used by `TreeQuerySet.descendants` in its
`instr(__tree.tree_path, ...)` predicate. -/
def wrappedPkChars (npk : Nat) : List Char :=
  sepChar :: (natChars npk ++ [sepChar])

/-- Substring test: `instr(haystack, needle) <> 0`. -/
def containsSub (w s : List Char) : Bool :=
  s.tails.any fun tl => w.isPrefixOf tl

theorem containsSub_iff {w s : List Char} :
    containsSub w s = true ↔ ∃ u v : List Char, s = u ++ w ++ v := by
  unfold containsSub
  rw [List.any_eq_true]
  constructor
  · rintro ⟨tl, htl, hpre⟩
    have hsuf : ∃ u, u ++ tl = s := List.mem_tails tl s |>.mp htl
    have hp : ∃ v, w ++ v = tl := List.isPrefixOf_iff_prefix.mp hpre
    rcases hsuf with ⟨u, rfl⟩
    rcases hp with ⟨v, rfl⟩
    exact ⟨u, v, by simp⟩
  · rintro ⟨u, v, rfl⟩
    refine ⟨w ++ v, ?_, List.isPrefixOf_iff_prefix.mpr ⟨v, rfl⟩⟩
    rw [List.mem_tails]
    exact ⟨u, by simp⟩

theorem pathStringOf_nil : pathStringOf [] = [sepChar] := rfl

theorem pathStringOf_flat (l : List Nat) :
    pathStringOf l = sepChar :: (l.flatMap fun e => natChars e ++ [sepChar]) := by
  cases l with
  | nil => rfl
  | cons r rest =>
    show sqlitePathEncode r rest = _
    rw [sqlitePathEncode_eq, flatMap_map_token]

theorem pathStringOf_cons (a : Nat) (rest : List Nat) :
    pathStringOf (a :: rest) = sepChar :: natChars a ++ pathStringOf rest := by
  rw [pathStringOf_flat, pathStringOf_flat]
  simp [List.flatMap_cons, List.append_assoc]

theorem natChars_inj {k a : Nat} (h : natChars k = natChars a) : k = a := by
  have h1 := parseNatChars_natChars k
  rw [h, parseNatChars_natChars a] at h1
  exact (Option.some_injective _ h1).symm

theorem sepfree_append_sep_inj :
    ∀ (x y u v : List Char), x ++ sepChar :: u = y ++ sepChar :: v →
      sepChar ∉ x → sepChar ∉ y → x = y ∧ u = v := by
  intro x
  induction x with
  | nil =>
    intro y u v h _ hy
    cases y with
    | nil =>
      refine ⟨rfl, ?_⟩
      simp only [List.nil_append] at h
      injection h
    | cons d y' =>
      simp only [List.nil_append, List.cons_append, List.cons.injEq] at h
      exact absurd (h.1 ▸ List.mem_cons_self d y') (by simpa [h.1] using hy)
  | cons c x' ih =>
    intro y u v h hx hy
    cases y with
    | nil =>
      simp only [List.cons_append, List.nil_append, List.cons.injEq] at h
      exact absurd (h.1 ▸ List.mem_cons_self c x') (by simpa [h.1] using hx)
    | cons d y' =>
      simp only [List.cons_append, List.cons.injEq] at h
      obtain ⟨rfl, h2⟩ := h
      have := ih y' u v h2 (fun hm => hx (List.mem_cons_of_mem _ hm))
        (fun hm => hy (List.mem_cons_of_mem _ hm))
      exact ⟨by rw [this.1], this.2⟩

theorem split_at_first_sep :
    ∀ (A : List Char) (s' B R : List Char),
      A ++ B = s' ++ sepChar :: R → sepChar ∉ A →
        ∃ s'', s' = A ++ s'' ∧ B = s'' ++ sepChar :: R := by
  intro A
  induction A with
  | nil =>
    intro s' B R h _
    exact ⟨s', rfl, by simpa using h⟩
  | cons c A' ih =>
    intro s' B R h hA
    cases s' with
    | nil =>
      simp only [List.cons_append, List.nil_append, List.cons.injEq] at h
      exact absurd (h.1 ▸ List.mem_cons_self c A') (by simpa [h.1] using hA)
    | cons d s'2 =>
      simp only [List.cons_append, List.cons.injEq] at h
      obtain ⟨rfl, h2⟩ := h
      rcases ih s'2 B R h2 (fun hm => hA (List.mem_cons_of_mem _ hm)) with ⟨s'', hs1, hs2⟩
      exact ⟨s'', by rw [List.cons_append, hs1], hs2⟩

/-- The separator-wrapped identifier occurs in the encoded path string
exactly when the identifier is an element of the path. -/
theorem wrapped_infix_iff (k : Nat) :
    ∀ l : List Nat,
      containsSub (wrappedPkChars k) (pathStringOf l) = true ↔ k ∈ l := by
  intro l
  induction l with
  | nil =>
    rw [containsSub_iff]
    constructor
    · rintro ⟨u, v, h⟩
      have := congrArg List.length h
      simp only [pathStringOf_nil, wrappedPkChars, List.length_append,
        List.length_cons, List.length_singleton] at this
      have hn := natChars_ne_nil k
      have : (natChars k).length ≥ 1 := List.length_pos.mpr hn
      omega
    · intro h
      cases h
  | cons a rest ih =>
    rw [containsSub_iff]
    constructor
    · rintro ⟨u, v, h⟩
      rw [pathStringOf_cons] at h
      cases u with
      | nil =>
        simp only [List.nil_append, wrappedPkChars, List.cons_append,
          List.cons.injEq] at h
        have h2 := h.2
        rw [pathStringOf_flat] at h2
        have h2' : natChars a ++ sepChar :: (rest.flatMap fun e => natChars e ++ [sepChar]) =
            natChars k ++ sepChar :: v := by
          simpa [List.append_assoc] using h2
        have hinj := sepfree_append_sep_inj _ _ _ _ h2'
          (sepChar_not_mem_natChars a) (sepChar_not_mem_natChars k)
        rw [← natChars_inj hinj.1]
        exact List.mem_cons_self a rest
      | cons c u' =>
        simp only [List.cons_append, List.cons.injEq] at h
        obtain ⟨-, h2⟩ := h
        rcases split_at_first_sep (natChars a) u'
          (pathStringOf rest) ((natChars k ++ [sepChar]) ++ v)
          (by simpa [wrappedPkChars, List.append_assoc] using h2)
          (sepChar_not_mem_natChars a) with ⟨s'', -, hB⟩
        refine List.mem_cons_of_mem a (ih.mp (containsSub_iff.mpr ⟨s'', v, ?_⟩))
        rw [hB]
        simp [wrappedPkChars, List.append_assoc]
    · intro hk
      rcases List.mem_cons.mp hk with rfl | hk
      · refine ⟨[], rest.flatMap fun e => natChars e ++ [sepChar], ?_⟩
        rw [pathStringOf_cons, pathStringOf_flat]
        simp [wrappedPkChars, List.append_assoc]
      · rcases containsSub_iff.mp (ih.mpr hk) with ⟨u, v, h⟩
        refine ⟨sepChar :: natChars a ++ u, v, ?_⟩
        rw [pathStringOf_cons, h]
        simp [List.append_assoc]

def sortByDepth (l : List CTERow) : List CTERow :=
  sortOrd (fun a b => decide (a.depth < b.depth)) l

/-- `TreeQuerySet.descendants(of, include_self=True)` on PostgreSQL:
the augmented query with `WHERE %s = ANY(__tree.tree_path)`. -/
def descendantsPG (t : List Row) (npk : Nat) : List CTERow :=
  sortByTreeOrdering ((cteRows t).filter fun c => decide (npk ∈ c.path))

/-- `TreeQuerySet.descendants(of, include_self=True)` on the
string-encoding dialects: the augmented query with
`WHERE instr(__tree.tree_path, "{sep}{pk}{sep}") <> 0`. -/
def descendantsStrDialect (t : List Row) (npk : Nat) : List CTERow :=
  sortByTreeOrdering ((cteRows t).filter fun c =>
    containsSub (wrappedPkChars npk) (pathStringOf c.path))

/-- `TreeQuerySet.ancestors`: the augmented query filtered with
`pk__in=ids` and ordered by `__tree.tree_depth`. -/
def ancestorsRows (t : List Row) (ids : List Nat) : List CTERow :=
  sortByDepth ((cteRows t).filter fun c => decide (c.tpk ∈ ids))

/-- `TreeQuerySet.ancestors(of, include_self)` together with the number
of queries it issues: the short-circuit for a parentless node returns an
empty result with zero queries; otherwise one query fetches the node's
tree fields and one produces the result. -/
def ancestorsCall (t : List Row) (of : Row) (includeSelf : Bool) : List CTERow × Nat :=
  if includeSelf = false ∧ of.parent = none then ([], 0)
  else
    match (cteRows t).find? fun c => c.tpk == of.pk with
    | some cn => (ancestorsRows t (if includeSelf then cn.path else cn.path.dropLast), 2)
    | none => ([], 2)

/-- C8: descendants-of via the separator-wrapped substring search equals
descendants-of via array membership, and both return exactly the rows
whose `tree_path` contains the node's identifier; ancestors-of returns
exactly the rows whose identifier appears in the node's `tree_path`,
ordered from the root downward (by `tree_depth`); and for a node with a
null parent reference and `include_self=False` the ancestors call
returns no rows and issues zero queries. -/
theorem c8_ancestors_descendants_spec (t : List Row) (n : CTERow) :
    descendantsStrDialect t n.tpk = descendantsPG t n.tpk ∧
      (∀ c : CTERow, c ∈ descendantsPG t n.tpk ↔ c ∈ cteRows t ∧ n.tpk ∈ c.path) ∧
      (∀ c : CTERow, c ∈ ancestorsRows t n.path ↔ c ∈ cteRows t ∧ c.tpk ∈ n.path) ∧
      (ancestorsRows t n.path).Pairwise (fun u v => u.depth ≤ v.depth) ∧
      (∀ r : Row, r.parent = none → ancestorsCall t r false = ([], 0)) := by
  refine ⟨?_, ?_, ?_, ?_, ?_⟩
  · unfold descendantsStrDialect descendantsPG
    congr 1
    apply List.filter_congr
    intro c _
    rw [Bool.eq_iff_iff]
    rw [wrapped_infix_iff, decide_eq_true_eq]
  · intro c
    unfold descendantsPG sortByTreeOrdering
    rw [mem_sortOrd, List.mem_filter, decide_eq_true_eq]
  · intro c
    unfold ancestorsRows sortByDepth
    rw [mem_sortOrd, List.mem_filter, decide_eq_true_eq]
  · have hp := pairwise_sortOrd (fun a b : CTERow => decide (a.depth < b.depth))
      (by intro x y h; simp only [decide_eq_true_eq] at h; simp; omega)
      (by
        intro x y z h1 h2
        simp only [decide_eq_false_iff_not] at h1 h2 ⊢
        omega)
      ((cteRows t).filter fun c => decide (c.tpk ∈ n.path))
    exact hp.imp (by
      intro u v h
      simp only [decide_eq_false_iff_not] at h
      omega)
  · intro r h
    unfold ancestorsCall
    rw [if_pos ⟨rfl, h⟩]

/-- Witness for C8 on the specification's example forest, for node 2. -/
theorem c8_ancestors_descendants_spec_witness :
    descendantsStrDialect [⟨1, none, 0⟩, ⟨2, some 1, 0⟩, ⟨3, some 1, 1⟩, ⟨4, some 2, 0⟩]
        (⟨1, [1, 2], [0, 0], 2⟩ : CTERow).tpk =
      descendantsPG [⟨1, none, 0⟩, ⟨2, some 1, 0⟩, ⟨3, some 1, 1⟩, ⟨4, some 2, 0⟩]
        (⟨1, [1, 2], [0, 0], 2⟩ : CTERow).tpk :=
  (c8_ancestors_descendants_spec
    [⟨1, none, 0⟩, ⟨2, some 1, 0⟩, ⟨3, some 1, 1⟩, ⟨4, some 2, 0⟩]
    ⟨1, [1, 2], [0, 0], 2⟩).1

/-- A Python value, as far as the configuration checks inspect one. -/
inductive PyVal
  | str (s : String)
  | int (n : Int)
  | list (l : List PyVal)
  | tuple (l : List PyVal)
  | pyNone

def PyVal.isStr : PyVal → Bool
  | .str _ => true
  | _ => false

def PyVal.isListOrTuple : PyVal → Bool
  | .list _ => true
  | .tuple _ => true
  | _ => false

/-- Is the value a string or an ordered collection of strings (the
specification's wording for a valid sibling order)? -/
def isStringOrStringCollection : PyVal → Bool
  | .str _ => true
  | .list l => l.all PyVal.isStr
  | .tuple l => l.all PyVal.isStr
  | _ => false

inductive ConfigError
  | valueError
deriving DecidableEq

def isOk : Except ConfigError (List PyVal) → Bool
  | .ok _ => true
  | .error _ => false

/-- The sibling-order validation at the top of
`TreeCompiler.get_rank_table`: a list or tuple is taken as the field
list, a string is wrapped in a singleton list, anything else raises
`ValueError`. -/
def validateSiblingOrder : PyVal → Except ConfigError (List PyVal)
  | PyVal.list l => .ok l
  | PyVal.tuple l => .ok l
  | PyVal.str s => .ok [PyVal.str s]
  | _ => .error ConfigError.valueError

/-- C7, counterexample: a tuple holding an integer is not an ordered
collection of strings, yet `get_rank_table` accepts it at the type
check instead of raising. -/
theorem c7_sibling_order_validation_counterexample :
    isStringOrStringCollection (PyVal.tuple [PyVal.int 1]) = false ∧
      isOk (validateSiblingOrder (PyVal.tuple [PyVal.int 1])) = true :=
  ⟨rfl, rfl⟩

/-- C7 (amended): the rank table builder raises a configuration error
exactly for values that are neither strings nor lists nor tuples; any
string, list or tuple passes the check, regardless of element types. -/
theorem c7_sibling_order_validation (v : PyVal) :
    isOk (validateSiblingOrder v) = (v.isStr || v.isListOrTuple) := by
  cases v <;> rfl

/-- A model field as `_meta.get_field` exposes it: its name and the
value of `get_internal_type()` (none when the attribute is missing,
e.g. on reverse relations). -/
structure FieldMeta where
  name : String
  internalType : Option String

/-- `model._meta.get_field(name)` as a lookup. -/
def getField (fields : List FieldMeta) (fieldName : String) : Option FieldMeta :=
  fields.find? fun f => f.name == fieldName

/-- Python exceptions escaping `_can_skip_rank_table`. -/
inductive PyError
  | nameError
  | fieldDoesNotExist
  | indexError
deriving DecidableEq

/-- The configuration inspected by `TreeCompiler._can_skip_rank_table`. -/
structure SkipConfig where
  rankTableModified : Bool
  treeFields : List (String × PyVal)
  siblingOrder : PyVal
  modelFields : List FieldMeta

/-- The custom-tree-field loop of `_can_skip_rank_table`: a non-string
column returns `False`; a string column is looked up with
`_meta.get_field` inside `try/except FieldDoesNotExist` — but
`FieldDoesNotExist` is never imported in compiler.py, so a failed
lookup escapes as a `NameError` while evaluating the except clause. -/
def checkTreeFields (fields : List FieldMeta) : List (String × PyVal) → Except PyError Bool
  | [] => .ok true
  | (_, col) :: rest =>
      match col with
      | PyVal.str s =>
          if (getField fields s).isSome then checkTreeFields fields rest
          else .error PyError.nameError
      | _ => .ok false

/-- `order_field.startswith("-")`. -/
def strStartsWithDash (s : String) : Bool :=
  match s.toList with
  | '-' :: _ => true
  | _ => false

/-- The integer-like internal types accepted by the fast path. -/
def integerFieldTypes : List String :=
  ["AutoField", "BigAutoField", "IntegerField", "BigIntegerField",
    "PositiveIntegerField", "PositiveSmallIntegerField", "SmallIntegerField"]

/-- Steps 4-8 of `_can_skip_rank_table` on the extracted order field:
descending or non-string orders and related lookups return `False`; the
field is then resolved (an unknown name raises `FieldDoesNotExist`,
uncaught here) and its internal type must be integer-like. -/
def checkOrderField (cfg : SkipConfig) : PyVal → Except PyError Bool
  | PyVal.str s =>
      if strStartsWithDash s then .ok false
      else if containsSub ['_', '_'] s.toList then .ok false
      else
        match getField cfg.modelFields s with
        | Option.none => .error PyError.fieldDoesNotExist
        | Option.some f =>
            match f.internalType with
            | Option.none => .ok false
            | Option.some ty => .ok (decide (ty ∈ integerFieldTypes))
  | _ => .ok false

/-- `TreeCompiler._can_skip_rank_table`, including the exceptions it can
raise: the fast path is usable only for an unmodified rank-table query,
custom tree fields that are existing simple columns, and a single
ascending non-related integer-typed order field. -/
def canSkipRankTable (cfg : SkipConfig) : Except PyError Bool :=
  if cfg.rankTableModified then .ok false
  else
    match checkTreeFields cfg.modelFields cfg.treeFields with
    | .error e => .error e
    | .ok false => .ok false
    | .ok true =>
        match cfg.siblingOrder with
        | PyVal.list l =>
            if l.length > 1 then .ok false
            else
              match l with
              | [] => .error PyError.indexError
              | x :: _ => checkOrderField cfg x
        | PyVal.tuple l =>
            if l.length > 1 then .ok false
            else
              match l with
              | [] => .error PyError.indexError
              | x :: _ => checkOrderField cfg x
        | v => checkOrderField cfg v

/-- A model with an automatic primary key, the parent foreign key and an
integer position column. -/
def exampleModelFields : List FieldMeta :=
  [⟨"id", some "AutoField"⟩, ⟨"parent", some "ForeignKey"⟩,
    ⟨"position", some "PositiveIntegerField"⟩]

/-- C3: contrary to the specification, a custom tree field naming a
column that does not exist on the base relation does not fall back to
the general rank-table path: `model._meta.get_field` raises
`FieldDoesNotExist`, whose handler in compiler.py references the never
imported name `FieldDoesNotExist` and therefore raises `NameError`.
The same configuration without the bad tree field is fast-path
eligible, isolating the failure to the unvalidated lookup. -/
theorem c3_missing_import_breaks_tree_field_fallback :
    canSkipRankTable
        { rankTableModified := false
          treeFields := [("category_name", PyVal.str "missing_column")]
          siblingOrder := PyVal.str "position"
          modelFields := exampleModelFields } = .error PyError.nameError ∧
      canSkipRankTable
        { rankTableModified := false
          treeFields := []
          siblingOrder := PyVal.str "position"
          modelFields := exampleModelFields } = .ok true :=
  ⟨rfl, rfl⟩

/-- The flags of the caller's query that `TreeCompiler.as_sql` inspects. -/
structure QueryFlags where
  distinct : Bool
  subquery : Bool
  existsAnnotationOnly : Bool
  hasSummaryAnnotation : Bool
  extraOrderBy : List String

/-- The `.exists()` subquery bypass at the top of `as_sql`
(`self.query.subquery and annotations == {"a": Value(1)}`). -/
def existsShortcut (q : QueryFlags) : Bool :=
  q.subquery && q.existsAnnotationOnly

/-- `skip_tree_fields` in `as_sql`: distinct subqueries and summary
(aggregate) queries suppress the derived columns and the ordering. -/
def skipTreeFields (q : QueryFlags) : Bool :=
  (q.distinct && q.subquery) || q.hasSummaryAnnotation

def treeOrderingRef : String := "__tree.tree_ordering"

/-- The `order_by` argument that `as_sql` hands to `query.add_extra`. -/
def compilerOrderByArg (q : QueryFlags) : List String :=
  if skipTreeFields q || !q.extraOrderBy.isEmpty then [] else [treeOrderingRef]

/-- Django's `Query.add_extra`: a non-empty `order_by` replaces
`extra_order_by`, an empty one leaves it untouched. -/
def addExtraOrderBy (q : QueryFlags) (ob : List String) : QueryFlags :=
  if ob.isEmpty then q else { q with extraOrderBy := ob }

/-- The extra ordering in effect after `as_sql` ran. -/
def asSqlEffectiveOrderBy (q : QueryFlags) : List String :=
  if existsShortcut q then q.extraOrderBy
  else (addExtraOrderBy q (compilerOrderByArg q)).extraOrderBy

/-- C6: outside the summary/aggregate and suppressed-subquery cases, a
query without an explicit extra ordering is ordered by
`__tree.tree_ordering` ascending (and the produced rows are sorted by
their `tree_ordering` key), while a caller-specified extra ordering is
kept unchanged and no default is added. -/
theorem c6_default_tree_ordering (q : QueryFlags) (t : List Row)
    (hex : existsShortcut q = false) (hskip : skipTreeFields q = false) :
    (q.extraOrderBy = [] →
      asSqlEffectiveOrderBy q = [treeOrderingRef] ∧
        (sortByTreeOrdering (cteRows t)).Pairwise
          (fun u v => lexLt v.ordering u.ordering = false)) ∧
      (q.extraOrderBy ≠ [] → asSqlEffectiveOrderBy q = q.extraOrderBy) := by
  constructor
  · intro hempty
    constructor
    · unfold asSqlEffectiveOrderBy addExtraOrderBy compilerOrderByArg
      rw [hex, hskip, hempty]
      simp [treeOrderingRef]
    · exact pairwise_sortOrd ordLt
        (fun x y h => lexLt_asymm x.ordering y.ordering h)
        (fun x y z h1 h2 => lexLt_neg_trans x.ordering y.ordering z.ordering h1 h2)
        (cteRows t)
  · intro hnon
    unfold asSqlEffectiveOrderBy addExtraOrderBy compilerOrderByArg
    rw [hex, hskip]
    simp [hnon]

/-- Witness for C6 on an unordered plain query over the example forest. -/
theorem c6_default_tree_ordering_witness :
    existsShortcut ⟨false, false, false, false, []⟩ = false ∧
      skipTreeFields ⟨false, false, false, false, []⟩ = false ∧
      (([] : List String) = [] →
        asSqlEffectiveOrderBy ⟨false, false, false, false, []⟩ = [treeOrderingRef] ∧
          (sortByTreeOrdering (cteRows
            [⟨1, none, 0⟩, ⟨2, some 1, 0⟩, ⟨3, some 1, 1⟩, ⟨4, some 2, 0⟩])).Pairwise
            (fun u v => lexLt v.ordering u.ordering = false)) :=
  ⟨rfl, rfl,
    (c6_default_tree_ordering ⟨false, false, false, false, []⟩
      [⟨1, none, 0⟩, ⟨2, some 1, 0⟩, ⟨3, some 1, 1⟩, ⟨4, some 2, 0⟩] rfl rfl).1⟩

/-- The tree-augmentation state attached to a query object.  `Option`
fields model Python's `hasattr` checks in `TreeQuery._setup_query`. -/
structure QueryObj where
  isTreeQuery : Bool
  siblingOrder : Option PyVal
  rankTableClauses : Option (List TreeClause)
  treeFieldsCfg : Option (List (String × PyVal))

/-- `TreeQuery._setup_query`: each attribute is initialized only when it
is not already present, so cloned/augmented queries keep their
configuration. -/
def setupQuery (defaultOrder : PyVal) (q : QueryObj) : QueryObj :=
  { q with
    siblingOrder := some (q.siblingOrder.getD defaultOrder)
    rankTableClauses := some (q.rankTableClauses.getD [])
    treeFieldsCfg := some (q.treeFieldsCfg.getD []) }

/-- `TreeQuerySet.with_tree_fields()`: swap in the tree query class and
run `_setup_query`. -/
def withTreeFields (defaultOrder : PyVal) (q : QueryObj) : QueryObj :=
  setupQuery defaultOrder { q with isTreeQuery := true }

/-- The rows an augmented query produces for its configuration: rank the
pre-filtered relation, run the recursive CTE, order by `tree_ordering`. -/
def queryResults (q : QueryObj) (t : List Row) : List CTERow :=
  sortByTreeOrdering (cteRows (rankTableOf (applyClauses (q.rankTableClauses.getD []) t)))

/-- C9: `with_tree_fields` is idempotent — reapplying it to an already
augmented query changes nothing: the query state is unchanged, the
previously configured sibling order, pre-filters and custom tree fields
are preserved, and the result rows and their order are the same. -/
theorem c9_with_tree_fields_idempotent (d : PyVal) (q : QueryObj) :
    withTreeFields d (withTreeFields d q) = withTreeFields d q ∧
      (withTreeFields d q).siblingOrder = some (q.siblingOrder.getD d) ∧
      (withTreeFields d q).rankTableClauses = some (q.rankTableClauses.getD []) ∧
      (withTreeFields d q).treeFieldsCfg = some (q.treeFieldsCfg.getD []) ∧
      ∀ t : List Row,
        queryResults (withTreeFields d (withTreeFields d q)) t =
          queryResults (withTreeFields d q) t := by
  have hidem : withTreeFields d (withTreeFields d q) = withTreeFields d q := by
    simp [withTreeFields, setupQuery]
  exact ⟨hidem, rfl, rfl, rfl, fun t => by rw [hidem]⟩

/-- A model's metadata as the base query layer exposes it, including the
real name and database column of the parent foreign key. -/
structure ModelMeta where
  pkAttname : String
  dbTable : String
  parentFieldName : String
  parentDbColumn : String
  fieldNames : List String

/-- The template parameters built in `TreeCompiler.as_sql`; shared by
all six CTE templates (three dialects, fast and general path). -/
structure SqlParams where
  parent : String
  pk : String
  dbTable : String
  sep : String
deriving DecidableEq

/-- The `params` dict of `as_sql`: the parent reference is the
hardcoded literal `"parent_id"` (the `XXX Hardcoded` comment in the
source), whatever the model metadata says. -/
def asSqlParams (m : ModelMeta) : SqlParams :=
  { parent := "parent_id"
    pk := m.pkAttname
    dbTable := m.dbTable
    sep := String.mk [sepChar] }

/-- `_find_tree_model`: the tree model is located by looking up the
field with the fixed name `"parent"`. -/
def findTreeModelField (m : ModelMeta) : Option String :=
  if "parent" ∈ m.fieldNames then some "parent" else Option.none

/-- C10: every emitted query, on every dialect and on both paths,
references the parent column by the fixed literal `parent_id` — the
emitted name agrees with the model's real parent column only when that
column is itself named `parent_id` — the parent field is located by the
fixed name `parent`, and two models differing only in their parent
metadata produce identical template parameters. -/
theorem c10_parent_reference_hardcoded :
    (∀ m : ModelMeta, ((asSqlParams m).parent = m.parentDbColumn ↔
        m.parentDbColumn = "parent_id")) ∧
      (∀ m : ModelMeta, (findTreeModelField m ≠ Option.none ↔ "parent" ∈ m.fieldNames)) ∧
      (∀ m m' : ModelMeta, m.pkAttname = m'.pkAttname → m.dbTable = m'.dbTable →
        asSqlParams m = asSqlParams m') := by
  refine ⟨?_, ?_, ?_⟩
  · intro m
    unfold asSqlParams
    exact ⟨fun h => h.symm, fun h => h.symm⟩
  · intro m
    unfold findTreeModelField
    by_cases h : "parent" ∈ m.fieldNames
    · simp [h]
    · simp [h]
  · intro m m' h1 h2
    unfold asSqlParams
    rw [h1, h2]

/-- Witness for C10: two models that differ only in the parent field
metadata get identical template parameters. -/
theorem c10_parent_reference_hardcoded_witness :
    (⟨"id", "app_node", "parent", "parent_id", ["id", "parent"]⟩ : ModelMeta).pkAttname =
        (⟨"id", "app_node", "mother", "mother_id", ["id", "mother"]⟩ : ModelMeta).pkAttname ∧
      (⟨"id", "app_node", "parent", "parent_id", ["id", "parent"]⟩ : ModelMeta).dbTable =
        (⟨"id", "app_node", "mother", "mother_id", ["id", "mother"]⟩ : ModelMeta).dbTable ∧
      asSqlParams ⟨"id", "app_node", "parent", "parent_id", ["id", "parent"]⟩ =
        asSqlParams ⟨"id", "app_node", "mother", "mother_id", ["id", "mother"]⟩ :=
  ⟨rfl, rfl,
    (c10_parent_reference_hardcoded).2.2
      ⟨"id", "app_node", "parent", "parent_id", ["id", "parent"]⟩
      ⟨"id", "app_node", "mother", "mother_id", ["id", "mother"]⟩ rfl rfl⟩
